import Mathlib

/-!
# Snippet Library: the snippet store, its mutations and the restore merge

A shallow embedding of `src/extension.js` (class `SnippetManager`, `saveSnippet`,
`deleteSnippet`, `backupSnippets`, `restoreSnippets`, `addLanguage`,
`SnippetCompletionProvider.provideCompletionItems`, `insertSnippet`).

Modelling decisions, all visible in the definitions below:

* A plain JavaScript object is a list of own enumerable properties with pairwise distinct
  keys (`JsObject`), in enumeration order.  The numeric reordering JavaScript applies to
  array-index keys is not modelled; a statement that mentions an order is about the
  enumeration order of the object, however it came about.
* Reading a property (`obj[k]`) follows the prototype chain: a key that is not an own
  property but is a member of `Object.prototype` (`constructor`, `toString`, ...) reads as a
  truthy inherited value (`Slot.inherited`).  Assigning (`obj[k] = v`) to `__proto__` when it is
  not an own property creates no own property.
* `JSON.parse`/`JSON.stringify` are library code: a file holds either text that
  `JSON.parse` rejects or the JSON value it parses to, and `JSON.parse (JSON.stringify v) = v`.
  Numbers are represented by integers (the program only tests them for truthiness); a number
  that `JSON.parse` reads as an infinity, which `JSON.stringify` writes as `null`, is not a
  value of the model.
* The `snippets` directory is a flat map from file name to content, in `readdirSync`
  order; it always exists, holds regular files only, its file names are compared exactly, and
  in the model a write of a string path succeeds.  `fs.writeFileSync` itself raises when asked to
  create a file whose name is longer than 255 bytes or holds a NUL character; the general
  statements in which a file is created under a name the user supplies therefore ask that the
  name be none of these (`fitsFileName`).
  A partition file holds unparseable text or a JSON object (the format the program writes): a
  file whose text parses to another JSON value (an array, a number, `null`, ...) is not a state
  of the model, and every statement over all stores is a statement over the stores without such
  a file.
  `path.join(snippetsDir, name)` is identified with `name`, which is what it is for a name
  without a path separator; the general statements about `restoreSnippets` ask this of the
  language keys of the document (`isPathSegment`).
* Every `fs.writeFileSync` is recorded in `Store.writes`, so that "no persistence write"
  is a statement about the state.
* `toLowerCase` maps the letters `A` to `Z` and `trim` removes blanks, tabs, carriage returns
  and newlines; the statements about `addLanguage` are in terms of `cleanId` and use nothing
  else about the two.  The host editor (dialogs, panel messages, `package.json`) is left out.
-/

namespace SnippetLibrary

/-! ## JSON values -/

/-- A JSON value, as returned by `JSON.parse`. -/
inductive Json where
  | null : Json
  | bool (b : Bool) : Json
  | num (n : Int) : Json
  | str (s : String) : Json
  | arr (xs : List Json) : Json
  | obj (kvs : List (String × Json)) : Json

/-- JavaScript truthiness (`ToBoolean`) of a JSON value. -/
def Json.truthy : Json → Bool
  | .null => false
  | .bool b => b
  | .num n => n != 0
  | .str s => s != ""
  | .arr _ => true
  | .obj _ => true

/-! ## Plain objects -/

/-- Own-property write on an entry list: replace the value in place when the key is present,
append the property otherwise. -/
def setEntry {α : Type} (k : String) (v : α) : List (String × α) → List (String × α)
  | [] => [(k, v)]
  | (k', v') :: t => if k' = k then (k, v) :: t else (k', v') :: setEntry k v t

/-- Own-property removal on an entry list (`delete obj[k]`). -/
def eraseEntry {α : Type} (k : String) : List (String × α) → List (String × α)
  | [] => []
  | (k', v') :: t => if k' = k then t else (k', v') :: eraseEntry k t

/-- Own-property read on an entry list. -/
def lookupEntry {α : Type} (k : String) : List (String × α) → Option α
  | [] => none
  | (k', v') :: t => if k' = k then some v' else lookupEntry k t

theorem keys_setEntry {α : Type} (k : String) (v : α) (l : List (String × α)) :
    (setEntry k v l).map Prod.fst =
      if k ∈ l.map Prod.fst then l.map Prod.fst else l.map Prod.fst ++ [k] := by
  induction l with
  | nil => simp [setEntry]
  | cons hd t ih =>
    obtain ⟨k', v'⟩ := hd
    by_cases h : k' = k
    · subst h; simp [setEntry]
    · have h' : ¬ k = k' := fun e => h e.symm
      simp only [setEntry, h, if_false, List.map_cons, ih, List.mem_cons, h', false_or]
      split <;> simp

theorem nodup_setEntry {α : Type} (k : String) (v : α) (l : List (String × α))
    (h : (l.map Prod.fst).Nodup) : ((setEntry k v l).map Prod.fst).Nodup := by
  rw [keys_setEntry]
  split
  · exact h
  · rename_i hk
    exact List.Nodup.append h (List.nodup_singleton k) (by simpa using hk)

theorem keys_eraseEntry_sublist {α : Type} (k : String) (l : List (String × α)) :
    List.Sublist ((eraseEntry k l).map Prod.fst) (l.map Prod.fst) := by
  induction l with
  | nil => simp [eraseEntry]
  | cons hd t ih =>
    obtain ⟨k', v'⟩ := hd
    by_cases h : k' = k
    · simp [eraseEntry, h]
    · simpa [eraseEntry, h] using ih

theorem nodup_eraseEntry {α : Type} (k : String) (l : List (String × α))
    (h : (l.map Prod.fst).Nodup) : ((eraseEntry k l).map Prod.fst).Nodup :=
  List.Nodup.sublist (keys_eraseEntry_sublist k l) h

/-- A plain JavaScript object: its own enumerable properties in enumeration order, the keys
pairwise distinct. -/
structure JsObject (α : Type) where
  entries : List (String × α)
  nodup : (entries.map Prod.fst).Nodup

namespace JsObject

variable {α : Type}

/-- The object literal `{}`. -/
def empty : JsObject α := ⟨[], List.nodup_nil⟩

/-- The call `Object.keys(o)`. -/
def keys (o : JsObject α) : List String := o.entries.map Prod.fst

/-- Own-property read: `some v` when `k` is an own property of `o`. -/
def get? (o : JsObject α) (k : String) : Option α := lookupEntry k o.entries

/-- The operation `CreateDataProperty`: define or overwrite the own property `k` (used by object spread and
by `JSON.parse`). -/
def set (o : JsObject α) (k : String) (v : α) : JsObject α :=
  ⟨setEntry k v o.entries, nodup_setEntry k v o.entries o.nodup⟩

/-- The statement `delete o[k]`. -/
def erase (o : JsObject α) (k : String) : JsObject α :=
  ⟨eraseEntry k o.entries, nodup_eraseEntry k o.entries o.nodup⟩

/-- The assignment `o[k] = v` on a plain object: as `set`, except that assigning to
`__proto__` when it is not an own property runs the `Object.prototype` setter and creates no
own property. -/
def assign (o : JsObject α) (k : String) (v : α) : JsObject α :=
  if k = "__proto__" ∧ (o.get? k).isNone then o else o.set k v

/-- Build an object by defining the listed properties in order (a later duplicate overwrites). -/
def ofList (l : List (String × α)) : JsObject α :=
  l.foldl (fun acc kv => acc.set kv.1 kv.2) empty

end JsObject

/-- The property names every plain object inherits from `Object.prototype`. -/
def objectPrototypeKeys : List String :=
  ["constructor", "__defineGetter__", "__defineSetter__", "hasOwnProperty",
   "__lookupGetter__", "__lookupSetter__", "isPrototypeOf", "propertyIsEnumerable",
   "toString", "valueOf", "__proto__", "toLocaleString"]

/-- The result of the property read `o[k]` on a plain object. -/
inductive Slot (α : Type) where
  | own (v : α) : Slot α
  | inherited : Slot α
  | undefined : Slot α

/-- The property read `o[k]`: the own property if there is one, otherwise the member of
`Object.prototype` of that name if there is one, otherwise `undefined`. -/
def JsObject.getProp {α : Type} (o : JsObject α) (k : String) : Slot α :=
  match o.get? k with
  | some v => .own v
  | none => if k ∈ objectPrototypeKeys then .inherited else .undefined

/-! ## Strings -/

/-- The character list with the first occurrence of `pat` removed (unchanged when `pat` does
not occur): `String.prototype.replace(pat, '')` with a string pattern. -/
def removeFirst (pat : List Char) : List Char → List Char
  | [] => []
  | c :: cs => if pat.isPrefixOf (c :: cs) then (c :: cs).drop pat.length
      else c :: removeFirst pat cs

/-- The test `item.endsWith('.json')`. -/
def endsWithJson (item : String) : Bool := ".json".toList.isSuffixOf item.toList

/-- The expression `item.replace('.json', '')`: the first occurrence of `.json` is removed. -/
def langOf (item : String) : String := String.mk (removeFirst ".json".toList item.toList)

/-- Split a character list at every newline: `String.prototype.split('\n')`. -/
def splitChars : List Char → List (List Char)
  | [] => [[]]
  | c :: cs =>
    if c = '\n' then [] :: splitChars cs
    else match splitChars cs with
      | [] => [[c]]
      | l :: ls => (c :: l) :: ls

/-- The expression `body.split('\n')` on a string. -/
def splitLines (s : String) : List String := (splitChars s.toList).map String.mk

/-! ## The file system and the store -/

/-- The content of a partition file: text that `JSON.parse` rejects, or a JSON object. -/
inductive Content where
  | malformed (text : String) : Content
  | object (o : JsObject Json) : Content

/-- An exception raised by the JavaScript runtime or by `fs`. -/
inductive JsError where
  | syntaxError : JsError
  | typeError : JsError
  | noEntry : JsError

/-- A value used where `fs` expects a path: a file of the `snippets` directory, or a value
that is not a string (a member of `Object.prototype` read through `files[lang]`). -/
inductive PathArg where
  | file (name : String) : PathArg
  | notAString : PathArg

/-- The state of the extension: the `snippets` directory (file name to content, in
`readdirSync` order), the in-memory snapshot `this.snippets`, and the log of
`fs.writeFileSync` calls on partition files, oldest first. -/
structure Store where
  dir : JsObject Content
  snippets : JsObject (JsObject Json)
  writes : List (String × Content)

/-- The call `fs.existsSync(p)`: false for an argument that is not a string. -/
def existsSync (dir : JsObject Content) : PathArg → Bool
  | .file name => (dir.get? name).isSome
  | .notAString => false

/-- The call `fs.readFileSync(p, 'utf8')`. -/
def readFileSync (dir : JsObject Content) : PathArg → Except JsError Content
  | .file name =>
    match dir.get? name with
    | some c => .ok c
    | none => .error .noEntry
  | .notAString => .error .typeError

/-- The call `fs.writeFileSync(p, JSON.stringify(o, null, 2), 'utf8')`: throws a `TypeError` when the
path argument is not a string. -/
def writeFileSync (s : Store) (p : PathArg) (c : Content) : Except JsError Store :=
  match p with
  | .file name => .ok { s with dir := s.dir.set name c, writes := s.writes ++ [(name, c)] }
  | .notAString => .error .typeError

/-- The call `JSON.parse` on the content of a partition file. -/
def parseContent : Content → Except JsError (JsObject Json)
  | .malformed _ => .error .syntaxError
  | .object o => .ok o

/-- The method `SnippetManager.getSnippetFiles`: every directory item ending in `.json` is recorded under
the key `item.replace('.json', '')`. -/
def getSnippetFiles (dir : JsObject Content) : JsObject String :=
  dir.keys.foldl
    (fun files item => if endsWithJson item then files.assign (langOf item) item else files)
    JsObject.empty

/-- The method `SnippetManager.getLanguageIds`. -/
def getLanguageIds (s : Store) : List String := (getSnippetFiles s.dir).keys

/-- The body of the loop of `refresh` for one file: the parsed content, or `{}` when the file
is missing or does not parse. -/
def loadPartition (dir : JsObject Content) (filePath : String) : JsObject Json :=
  if existsSync dir (.file filePath) then
    match readFileSync dir (.file filePath) >>= parseContent with
    | .ok o => o
    | .error _ => JsObject.empty
  else JsObject.empty

/-- The method `SnippetManager.refresh`: the snapshot is rebuilt from the discovered files. -/
def refresh (s : Store) : Store :=
  let files := getSnippetFiles s.dir
  let rebuilt := files.entries.foldl
    (fun acc e => acc.assign e.1 (loadPartition s.dir e.2)) JsObject.empty
  { s with snippets := rebuilt }

/-- The constructor of `SnippetManager`: an empty snapshot, then `refresh`. -/
def SnippetManager (dir : JsObject Content) : Store :=
  refresh { dir := dir, snippets := JsObject.empty, writes := [] }

/-- A value returned by `getSnippets`: a partition, or the member of `Object.prototype`
found under the requested name. -/
inductive Partition where
  | object (o : JsObject Json) : Partition
  | builtin (name : String) : Partition

/-- The method `SnippetManager.getSnippets`: `this.snippets[language] || {}`. -/
def getSnippets (s : Store) (language : String) : Partition :=
  match s.snippets.getProp language with
  | .own o => .object o
  | .inherited => .builtin language
  | .undefined => .object JsObject.empty

/-- The method `SnippetManager.getAllSnippets`. -/
def getAllSnippets (s : Store) : JsObject (JsObject Json) := s.snippets

/-! ## Mutation operations -/

/-- The `data` object of a `saveSnippet` message.  `language` is the property key
`files[language]` is read with; `originalName` is `none` for `null`/`undefined`. -/
structure SaveRequest where
  language : String
  originalName : Option String
  newName : String
  pfx : Json
  body : Json
  description : Json

/-- The value read from `files[lang]`, as the path argument it is used as (`none` when the
read is `undefined`, which is falsy). -/
def filePathOf (files : JsObject String) (lang : String) : Option PathArg :=
  match files.getProp lang with
  | .own p => some (.file p)
  | .inherited => some .notAString
  | .undefined => none

/-- The expression `typeof body === 'string' ? body.split('\n') : body`. -/
def normalizeBody : Json → Json
  | .str s => .arr ((splitLines s).map Json.str)
  | b => b

/-- The object literal stored by `saveSnippet` under `newName`. -/
def snippetRecord (data : SaveRequest) : Json :=
  .obj [("prefix", data.pfx), ("body", normalizeBody data.body),
        ("description", data.description)]

/-- The read-with-fallback of `saveSnippet`: the parsed file, or `{}` when the file does not
exist or does not parse. -/
def loadOrEmpty (dir : JsObject Content) (p : PathArg) : JsObject Json :=
  if existsSync dir p then
    match readFileSync dir p >>= parseContent with
    | .ok o => o
    | .error _ => JsObject.empty
  else JsObject.empty

/-- Truthiness of the property read `snippets[name]`. -/
def slotTruthy : Slot Json → Bool
  | .own v => v.truthy
  | .inherited => true
  | .undefined => false

/-- The condition `originalName && originalName !== newName && snippets[originalName]`. -/
def renameApplies (snippets : JsObject Json) (originalName : Option String)
    (newName : String) : Bool :=
  match originalName with
  | none => false
  | some o => o != "" && o != newName && slotTruthy (snippets.getProp o)

/-- The in-memory update of `saveSnippet` on the partition it loaded: the conditional
`delete snippets[originalName]`, then the assignment `snippets[newName] = {...}`. -/
def applySave (data : SaveRequest) (snippets : JsObject Json) : JsObject Json :=
  let snippets :=
    match data.originalName with
    | some o => if renameApplies snippets (some o) data.newName then snippets.erase o
        else snippets
    | none => snippets
  snippets.assign data.newName (snippetRecord data)

/-- The function `saveSnippet`.  An exception (the `TypeError` of `fs.writeFileSync` on a path
that is not a string) leaves the store as it was. -/
def saveSnippet (data : SaveRequest) (s : Store) : Except JsError Store :=
  let files := getSnippetFiles s.dir
  let filePath : Option PathArg :=
    match filePathOf files data.language with
    | some p => some p
    | none => if data.language = "global" then some (.file "global.json") else none
  match filePath with
  | none => .ok s
  | some p =>
    let snippets := applySave data (loadOrEmpty s.dir p)
    match writeFileSync s p (.object snippets) with
    | .ok s' => .ok (refresh s')
    | .error e => .error e

/-- The `data` object of a `deleteSnippet` message. -/
structure DeleteRequest where
  language : String
  name : String

/-- The function `deleteSnippet`; every exception is caught inside it. -/
def deleteSnippet (data : DeleteRequest) (s : Store) : Store :=
  let files := getSnippetFiles s.dir
  match filePathOf files data.language with
  | none => s
  | some p =>
    if existsSync s.dir p then
      match readFileSync s.dir p >>= parseContent with
      | .error _ => s
      | .ok snippets =>
        if slotTruthy (snippets.getProp data.name) then
          match writeFileSync s p (.object (snippets.erase data.name)) with
          | .ok s' => refresh s'
          | .error _ => s
        else s
    else s

/-! ## Backup and restore -/

/-- The document chosen in the open dialog of `restoreSnippets`: text that `JSON.parse`
rejects, or the JSON value it parses to. -/
inductive Document where
  | unparseable (text : String) : Document
  | json (v : Json) : Document

/-- The list `[("0", x0), ("1", x1), ...]`: the index properties of an array or string. -/
def indexed {α : Type} (xs : List α) : List (String × α) :=
  xs.enum.map (fun p => (toString p.1, p.2))

/-- The own enumerable string-keyed properties of a JSON value, as copied by object spread
(`{...v}`): none for `null`, booleans and numbers, the index properties for arrays and strings. -/
def Json.ownProps : Json → JsObject Json
  | .obj kvs => JsObject.ofList kvs
  | .arr xs => JsObject.ofList (indexed xs)
  | .str s => JsObject.ofList (indexed (s.toList.map (fun c => Json.str (String.singleton c))))
  | _ => JsObject.empty

/-- The call `Object.entries(v)`: throws a `TypeError` on `null`. -/
def objectEntries : Json → Except JsError (List (String × Json))
  | .null => .error .typeError
  | v => .ok v.ownProps.entries

/-- The object spread `{ ...currentSnippets, ...snippets }`. -/
def spread (currentSnippets : JsObject Json) (snippets : Json) : JsObject Json :=
  snippets.ownProps.entries.foldl (fun acc kv => acc.set kv.1 kv.2) currentSnippets

/-- The document `backupSnippets` writes: `JSON.stringify(getAllSnippets())`, as the value
`JSON.parse` gives back for it. -/
def backupSnippets (s : Store) : Document :=
  .json (.obj (s.snippets.entries.map (fun e => (e.1, Json.obj e.2.entries))))

/-- The path `restoreSnippets` uses for a document language: `files[lang]` when that is
truthy, the new file `<lang>.json` otherwise. -/
def restoreFilePath (files : JsObject String) (lang : String) : PathArg :=
  match filePathOf files lang with
  | some p => p
  | none => .file (lang ++ ".json")

/-- One iteration of the loop of `restoreSnippets` for the document entry `lang: snippets`.
The existing file is parsed without a `try`, so a file that does not parse raises. -/
def restoreStep (files : JsObject String) (lang : String) (snippets : Json) (s : Store) :
    Except JsError Store :=
  let filePath : PathArg := restoreFilePath files lang
  let current : Except JsError (JsObject Json) :=
    if existsSync s.dir filePath then readFileSync s.dir filePath >>= parseContent
    else .ok JsObject.empty
  match current with
  | .error e => .error e
  | .ok currentSnippets => writeFileSync s filePath (.object (spread currentSnippets snippets))

/-- The loop of `restoreSnippets` over `Object.entries(backup)`: the store reached, and the
exception that ended the loop early, if any. -/
def restoreLoop (files : JsObject String) : List (String × Json) → Store → Store × Option JsError
  | [], s => (s, none)
  | (lang, snippets) :: rest, s =>
    match restoreStep files lang snippets s with
    | .error e => (s, some e)
    | .ok s' => restoreLoop files rest s'

/-- How `restoreSnippets` ended. -/
inductive RestoreOutcome where
  | declined : RestoreOutcome
  | noFileChosen : RestoreOutcome
  | failed (e : JsError) : RestoreOutcome
  | restored : RestoreOutcome

/-- The function `restoreSnippets`, given the answer to the confirmation prompt and the
document chosen in the open dialog (`none` when the dialog is dismissed). -/
def restoreSnippets (answer : String) (chosen : Option Document) (s : Store) :
    Store × RestoreOutcome :=
  if answer ≠ "Yes" then (s, .declined)
  else
    match chosen with
    | none => (s, .noFileChosen)
    | some (.unparseable _) => (s, .failed .syntaxError)
    | some (.json backup) =>
      let files := getSnippetFiles s.dir
      match objectEntries backup with
      | .error e => (s, .failed e)
      | .ok documentEntries =>
        match restoreLoop files documentEntries s with
        | (s', some e) => (s', .failed e)
        | (s', none) => (refresh s', .restored)

/-! ## Add-language -/

/-- The call `languageId.toLowerCase()`, on the letters `A` to `Z`. -/
def toLowerCase (s : String) : String := String.mk (s.toList.map Char.toLower)

/-- The call `String.prototype.trim()`: white space (blank, tab, carriage return, newline) is
removed at both ends. -/
def trim (s : String) : String :=
  String.mk
    ((s.toList.dropWhile Char.isWhitespace).reverse.dropWhile Char.isWhitespace).reverse

/-- The expression `languageId.toLowerCase().trim()`. -/
def cleanId (languageId : String) : String := trim (toLowerCase languageId)

/-- How `addLanguage` ended: nothing entered (the input box dismissed or left empty), the
warning that the language already exists, or the language added. -/
inductive AddOutcome where
  | noInput : AddOutcome
  | alreadyExists (cleanId : String) : AddOutcome
  | added (cleanId : String) : AddOutcome

/-- The function `addLanguage`, given what the input box returned (`none` when dismissed).
The update of `package.json` and the message to the panel touch neither the partition files
nor the snapshot and are left out. -/
def addLanguage (languageId : Option String) (s : Store) : Except JsError (Store × AddOutcome) :=
  match languageId with
  | none => .ok (s, .noInput)
  | some languageId =>
    if languageId = "" then .ok (s, .noInput)
    else
      let filePath := PathArg.file (cleanId languageId ++ ".json")
      if existsSync s.dir filePath then .ok (s, .alreadyExists (cleanId languageId))
      else
        match writeFileSync s filePath (.object JsObject.empty) with
        | .ok s' => .ok (refresh s', .added (cleanId languageId))
        | .error e => .error e

/-! ## Completion candidates and insertion -/

/-- The strings of a list joined with a separator. -/
def joinStrings (sep : String) : List String → String
  | [] => ""
  | [x] => x
  | x :: y :: rest => x ++ sep ++ joinStrings sep (y :: rest)

mutual
/-- The conversion `ToString` of a JSON value: an array is its elements joined with a comma. -/
def Json.toJsString : Json → String
  | .null => "null"
  | .bool b => if b then "true" else "false"
  | .num n => toString n
  | .str s => s
  | .arr xs => joinStrings "," (Json.elementStrings xs)
  | .obj _ => "[object Object]"
/-- The strings `Array.prototype.join` joins: the empty string for `null`, `ToString` of the
element otherwise. -/
def Json.elementStrings : List Json → List String
  | [] => []
  | .null :: rest => "" :: Json.elementStrings rest
  | x :: rest => Json.toJsString x :: Json.elementStrings rest
end

/-- The call `body.join(sep)` on an array. -/
def arrayJoin (sep : String) (xs : List Json) : String :=
  joinStrings sep (Json.elementStrings xs)

/-- The expression `Array.isArray(body) ? body.join('\n') : body` of `provideCompletionItems`
and `insertSnippet`; `none` stands for `undefined`. -/
def snippetText : Option Json → Option Json
  | some (.arr xs) => some (.str (arrayJoin "\n" xs))
  | b => b

/-- The property read `data.key` for the keys `prefix`, `description` and `body`, which no
prototype defines: a `TypeError` on `null`, the own property of an object, `undefined`
(`none`) otherwise. -/
def readField (data : Json) (key : String) : Except JsError (Option Json) :=
  match data with
  | .null => .error .typeError
  | .obj kvs => .ok ((JsObject.ofList kvs).get? key)
  | _ => .ok none

/-- The expression `data.description || ''`. -/
def orEmptyString : Option Json → Json
  | some v => if v.truthy then v else .str ""
  | none => .str ""

/-- A completion candidate: the label `data.prefix`, the detail, the documentation text and
the text of the snippet string. -/
structure CompletionItem where
  label : Option Json
  detail : String
  documentation : Json
  insertText : Option Json

/-- The body of the loop of `addSnippets` for the entry `name: data`. -/
def completionItem (isGlobal : Bool) (name : String) (data : Json) :
    Except JsError CompletionItem :=
  match readField data "prefix", readField data "description", readField data "body" with
  | .ok label, .ok description, .ok body =>
    .ok { label := label
          detail := if isGlobal then name ++ " (Global)" else name
          documentation := orEmptyString description
          insertText := snippetText body }
  | .error e, _, _ => .error e
  | _, .error e, _ => .error e
  | _, _, .error e => .error e

/-- The call `Object.entries(sourceSnippets)` on a value `getSnippets` returned: a member of
`Object.prototype` has no own enumerable property. -/
def partitionEntries : Partition → List (String × Json)
  | .object o => o.entries
  | .builtin _ => []

/-- The loop of `addSnippets` over the entries of a partition: the candidates pushed, or the
exception raised on the way. -/
def collectItems (isGlobal : Bool) : List (String × Json) → Except JsError (List CompletionItem)
  | [] => .ok []
  | (name, data) :: rest =>
    match completionItem isGlobal name data with
    | .error e => .error e
    | .ok item =>
      match collectItems isGlobal rest with
      | .error e => .error e
      | .ok items => .ok (item :: items)

/-- The local function `addSnippets` of `provideCompletionItems`. -/
def addSnippets (sourceSnippets : Partition) (isGlobal : Bool) :
    Except JsError (List CompletionItem) :=
  collectItems isGlobal (partitionEntries sourceSnippets)

/-- The expression `lang === 'javascriptreact' ? 'javascript' : lang`. -/
def targetLanguage (languageId : String) : String :=
  if languageId = "javascriptreact" then "javascript" else languageId

/-- The method `SnippetCompletionProvider.provideCompletionItems` for a document of the given
language: the candidates of the target partition, then those of the global partition. -/
def provideCompletionItems (s : Store) (languageId : String) :
    Except JsError (List CompletionItem) :=
  let snippets := getSnippets s (targetLanguage languageId)
  let globalSnippets := getSnippets s "global"
  match addSnippets snippets false with
  | .error e => .error e
  | .ok languageItems =>
    match addSnippets globalSnippets true with
    | .error e => .error e
    | .ok globalItems => .ok (languageItems ++ globalItems)

/-- The text `insertSnippet` hands to the editor for the `body` of its message. -/
def insertSnippet (body : Option Json) : Option Json := snippetText body

/-! ## Observations used in the statements -/

/-- The content persisted for a language: the content of the file `getSnippetFiles` maps it
to, `none` when the language has no partition file. -/
def persistedContent (s : Store) (lang : String) : Option Content :=
  match (getSnippetFiles s.dir).get? lang with
  | some p => s.dir.get? p
  | none => none

/-- The partition persisted for a language: the parsed content of its file, a file that does
not parse read as `{}` (as `refresh` reads it); `none` when the language has no file. -/
def persistedPartition (s : Store) (lang : String) : Option (JsObject Json) :=
  ((getSnippetFiles s.dir).get? lang).map (loadPartition s.dir)

/-- A language key without a path separator: `path.join(snippetsDir, key + '.json')` is then
the file `<key>.json` of the `snippets` directory itself. -/
def isPathSegment (k : String) : Bool :=
  !(k.toList.contains '/') && !(k.toList.contains '\\')

/-- A language key that names its own partition file: it is a single path segment, and
`getSnippetFiles` derives the key back from the file name `<key>.json`. -/
def namesOwnFile (k : String) : Bool :=
  isPathSegment k && decide (langOf (k ++ ".json") = k)

/-- A file name `fs.writeFileSync` does not refuse for its form: at most 255 bytes of UTF-8,
the limit of the common file systems (beyond it the call raises `ENAMETOOLONG`), and no NUL
character (for which it raises `ERR_INVALID_ARG_VALUE`). -/
def fitsFileName (name : String) : Bool :=
  decide (name.utf8ByteSize ≤ 255) && !(name.toList.contains (Char.ofNat 0))

/-- No file of the directory holds text that `JSON.parse` rejects. -/
def allParse (dir : JsObject Content) : Prop :=
  ∀ name text, dir.get? name ≠ some (.malformed text)

/-- The snapshot is the one `refresh` builds from the partition files as they are now. -/
def Consistent (s : Store) : Prop := s.snippets = (refresh s).snippets

/-! ## Stores and requests used in the concrete statements -/

/-- A snippet record as stored in a partition file. -/
def sampleRecord (trigger : String) : Json :=
  .obj [("prefix", .str trigger), ("body", .arr [.str "console.log($1);"]),
        ("description", .str "")]

/-- A directory whose first partition file does not parse. -/
def malformedFirstDir : JsObject Content :=
  JsObject.ofList
    [("a.json", .malformed "not json"),
     ("b.json", .object (JsObject.ofList [("A", .str "x"), ("B", .str "y")]))]

/-- A restore document for the languages `a` and `b`, overwriting `A` in `b`. -/
def overwriteDocument : Document :=
  .json (.obj [("a", .obj []), ("b", .obj [("A", .str "z")])])

/-- A directory whose second partition file does not parse. -/
def malformedSecondDir : JsObject Content :=
  JsObject.ofList
    [("a.json", .object (JsObject.ofList [("A", .num 1)])),
     ("b.json", .malformed "not json")]

/-- A restore document adding one entry to each of the languages `a` and `b`. -/
def twoLanguageDocument : Document :=
  .json (.obj [("a", .obj [("B", .num 2)]), ("b", .obj [("C", .num 3)])])

/-- A directory whose only partition file does not parse. -/
def malformedOnlyDir : JsObject Content :=
  JsObject.ofList [("a.json", .malformed "not json")]

/-- A restore document with one entry for the language `a`. -/
def oneEntryDocument : Document := .json (.obj [("a", .obj [("A", .num 1)])])

/-- A directory with an empty `javascript` partition. -/
def emptyJavascriptDir : JsObject Content :=
  JsObject.ofList [("javascript.json", .object JsObject.empty)]

/-- A save request for a new snippet named `__proto__`. -/
def protoRequest : SaveRequest :=
  { language := "javascript", originalName := none, newName := "__proto__",
    pfx := .str "pr", body := .str "Object.getPrototypeOf($1)", description := .str "" }

/-- A directory with a `javascript` partition of two snippets. -/
def twoSnippetDir : JsObject Content :=
  JsObject.ofList
    [("javascript.json",
      .object (JsObject.ofList [("log", sampleRecord "log"), ("print", sampleRecord "pr")]))]

/-- A save request renaming `log` to the name of the other snippet, `print`. -/
def renameOntoRequest : SaveRequest :=
  { language := "javascript", originalName := some "log", newName := "print",
    pfx := .str "log", body := .str "console.log($1);", description := .str "" }

/-- A directory with a `javascript` partition of one snippet. -/
def oneSnippetDir : JsObject Content :=
  JsObject.ofList
    [("javascript.json", .object (JsObject.ofList [("log", sampleRecord "log")]))]

/-- A save request renaming `log` to the unused name `trace`. -/
def renameRequest : SaveRequest :=
  { language := "javascript", originalName := some "log", newName := "trace",
    pfx := .str "tr", body := .str "console.trace($1);", description := .str "" }

/-- A directory with the partition `{A: 1}` of language `a`. -/
def singleDir : JsObject Content :=
  JsObject.ofList [("a.json", .object (JsObject.ofList [("A", .num 1)]))]

/-- A restore document whose second language key is a member of `Object.prototype`. -/
def inheritedKeyDocument : Document :=
  .json (.obj [("a", .obj [("B", .num 2)]), ("constructor", .obj [])])

/-- The store left by the aborted restore of `inheritedKeyDocument` into `singleDir`: the file
of `a` holds the merged partition, the snapshot still holds the partition read before. -/
def staleStore : Store :=
  { dir := JsObject.ofList
      [("a.json", .object (JsObject.ofList [("A", .num 1), ("B", .num 2)]))]
    snippets := JsObject.ofList [("a", JsObject.ofList [("A", .num 1)])]
    writes := [("a.json", .object (JsObject.ofList [("A", .num 1), ("B", .num 2)]))] }

/-- The store left by the aborted restore of `twoLanguageDocument` into `malformedSecondDir`. -/
def abortedStore : Store :=
  (restoreSnippets "Yes" (some twoLanguageDocument) (SnippetManager malformedSecondDir)).1

/-- A restore document for a language whose name contains `.json`. -/
def dottedDocument : Document := .json (.obj [("data.jsonl", .obj [("A", .num 1)])])

/-- A restore document for the language `c` only. -/
def otherLanguageDocument : Json := .obj [("c", .obj [("Z", .num 9)])]

/-- A restore document with a `null` entry for the language `javascript`. -/
def nullEntryDocument : Document := .json (.obj [("javascript", .obj [("a", .null)])])

/-- The store after `nullEntryDocument` is restored into an empty `javascript` partition. -/
def nullEntryStore : Store :=
  (restoreSnippets "Yes" (some nullEntryDocument) (SnippetManager emptyJavascriptDir)).1

/-- A directory with a `javascript` partition of two snippets and a `global` partition of
one, whose name the `javascript` partition has too. -/
def completionDir : JsObject Content :=
  JsObject.ofList
    [("javascript.json",
      .object (JsObject.ofList [("foo", sampleRecord "f"), ("log", sampleRecord "log")])),
     ("global.json", .object (JsObject.ofList [("log", sampleRecord "l")]))]

/-- The store after the token of one blank is added as a language to an empty directory:
the partition file `.json` of the language with the empty name exists. -/
def blankLanguageStore : Store :=
  { dir := JsObject.ofList [(".json", .object JsObject.empty)]
    snippets := JsObject.ofList [("", JsObject.empty)]
    writes := [(".json", .object JsObject.empty)] }

/-- A save request for a language that names a member of `Object.prototype`. -/
def inheritedLanguageRequest : SaveRequest :=
  { language := "constructor", originalName := none, newName := "log",
    pfx := .str "log", body := .str "console.log($1);", description := .str "" }

/-! ## Lemmas on entry lists -/

theorem lookupEntry_setEntry {α : Type} (k k' : String) (v : α) (l : List (String × α)) :
    lookupEntry k' (setEntry k v l) = if k' = k then some v else lookupEntry k' l := by
  induction l with
  | nil =>
    by_cases h : k' = k
    · simp [setEntry, lookupEntry, h]
    · have h' : ¬ k = k' := fun e => h e.symm
      simp [setEntry, lookupEntry, h, h']
  | cons hd t ih =>
    obtain ⟨a, b⟩ := hd
    by_cases h1 : a = k
    · subst h1
      by_cases h2 : k' = a
      · simp [setEntry, lookupEntry, h2]
      · have h2' : ¬ a = k' := fun e => h2 e.symm
        simp [setEntry, lookupEntry, h2, h2']
    · by_cases h2 : a = k'
      · subst h2
        simp [setEntry, lookupEntry, h1]
      · simp [setEntry, lookupEntry, h1, h2, ih]

theorem lookupEntry_eq_none_iff {α : Type} (k : String) (l : List (String × α)) :
    lookupEntry k l = none ↔ k ∉ l.map Prod.fst := by
  induction l with
  | nil => simp [lookupEntry]
  | cons hd t ih =>
    obtain ⟨a, b⟩ := hd
    by_cases h : a = k
    · simp [lookupEntry, h]
    · have h' : ¬ k = a := fun e => h e.symm
      simp [lookupEntry, h, h', ih]

theorem lookupEntry_of_mem {α : Type} (k : String) (v : α) (l : List (String × α))
    (hn : (l.map Prod.fst).Nodup) (hm : (k, v) ∈ l) : lookupEntry k l = some v := by
  induction l with
  | nil => simp at hm
  | cons hd t ih =>
    obtain ⟨a, b⟩ := hd
    simp only [List.map_cons, List.nodup_cons] at hn
    rcases List.mem_cons.mp hm with h | h
    · cases h; simp [lookupEntry]
    · have hk : k ∈ t.map Prod.fst := List.mem_map.mpr ⟨(k, v), h, rfl⟩
      have hne : ¬ a = k := fun e => hn.1 (e ▸ hk)
      simp [lookupEntry, hne, ih hn.2 h]

theorem mem_of_lookupEntry {α : Type} (k : String) (v : α) (l : List (String × α))
    (h : lookupEntry k l = some v) : (k, v) ∈ l := by
  induction l with
  | nil => simp [lookupEntry] at h
  | cons hd t ih =>
    obtain ⟨a, b⟩ := hd
    by_cases e : a = k
    · subst e
      simp [lookupEntry] at h
      simp [h]
    · simp [lookupEntry, e] at h
      exact List.mem_cons_of_mem _ (ih h)

theorem lookupEntry_eraseEntry {α : Type} (k k' : String) (l : List (String × α))
    (hn : (l.map Prod.fst).Nodup) :
    lookupEntry k' (eraseEntry k l) = if k' = k then none else lookupEntry k' l := by
  induction l with
  | nil => simp [eraseEntry, lookupEntry]
  | cons hd t ih =>
    obtain ⟨a, b⟩ := hd
    simp only [List.map_cons, List.nodup_cons] at hn
    by_cases h1 : a = k
    · subst h1
      by_cases h2 : k' = a
      · subst h2
        simp [eraseEntry, (lookupEntry_eq_none_iff k' t).mpr hn.1]
      · have h2' : ¬ a = k' := fun e => h2 e.symm
        simp [eraseEntry, lookupEntry, h2, h2']
    · by_cases h2 : a = k'
      · subst h2
        simp [eraseEntry, lookupEntry, h1]
      · simp [eraseEntry, lookupEntry, h1, h2, ih hn.2]

theorem setEntry_of_not_mem {α : Type} (k : String) (v : α) (l : List (String × α))
    (h : k ∉ l.map Prod.fst) : setEntry k v l = l ++ [(k, v)] := by
  induction l with
  | nil => simp [setEntry]
  | cons hd t ih =>
    obtain ⟨a, b⟩ := hd
    simp only [List.map_cons, List.mem_cons, not_or] at h
    have hne : ¬ a = k := fun e => h.1 e.symm
    simp [setEntry, hne, ih h.2]

theorem setEntry_of_lookup {α : Type} (k : String) (v : α) (l : List (String × α))
    (h : lookupEntry k l = some v) : setEntry k v l = l := by
  induction l with
  | nil => simp [lookupEntry] at h
  | cons hd t ih =>
    obtain ⟨a, b⟩ := hd
    by_cases e : a = k
    · subst e
      simp [lookupEntry] at h
      simp [setEntry, h]
    · simp [lookupEntry, e] at h
      simp [setEntry, e, ih h]

theorem length_setEntry_of_not_mem {α : Type} (k : String) (v : α) (l : List (String × α))
    (h : k ∉ l.map Prod.fst) : (setEntry k v l).length = l.length + 1 := by
  rw [setEntry_of_not_mem k v l h]; simp

theorem length_eraseEntry_of_mem {α : Type} (k : String) (l : List (String × α))
    (h : k ∈ l.map Prod.fst) : (eraseEntry k l).length + 1 = l.length := by
  induction l with
  | nil => simp at h
  | cons hd t ih =>
    obtain ⟨a, b⟩ := hd
    by_cases e : a = k
    · simp [eraseEntry, e]
    · have e' : ¬ k = a := fun x => e x.symm
      simp only [List.map_cons, List.mem_cons, e', false_or] at h
      simp [eraseEntry, e, ih h]

theorem keys_eraseEntry_of_not_mem {α : Type} (k : String) (l : List (String × α))
    (h : k ∉ l.map Prod.fst) : eraseEntry k l = l := by
  induction l with
  | nil => simp [eraseEntry]
  | cons hd t ih =>
    obtain ⟨a, b⟩ := hd
    simp only [List.map_cons, List.mem_cons, not_or] at h
    have hne : ¬ a = k := fun e => h.1 e.symm
    simp [eraseEntry, hne, ih h.2]

/-! ## Lemmas on plain objects -/

namespace JsObject

variable {α : Type}

theorem ext_entries {o o' : JsObject α} (h : o.entries = o'.entries) : o = o' := by
  cases o; cases o'; cases h; rfl

theorem get?_set (o : JsObject α) (k k' : String) (v : α) :
    (o.set k v).get? k' = if k' = k then some v else o.get? k' :=
  lookupEntry_setEntry k k' v o.entries

theorem get?_erase (o : JsObject α) (k k' : String) :
    (o.erase k).get? k' = if k' = k then none else o.get? k' :=
  lookupEntry_eraseEntry k k' o.entries o.nodup

theorem get?_eq_none_iff (o : JsObject α) (k : String) : o.get? k = none ↔ k ∉ o.keys :=
  lookupEntry_eq_none_iff k o.entries

theorem get?_isSome_iff (o : JsObject α) (k : String) : (o.get? k).isSome ↔ k ∈ o.keys := by
  rw [← not_iff_not, ← get?_eq_none_iff]
  cases o.get? k <;> simp

theorem keys_set (o : JsObject α) (k : String) (v : α) :
    (o.set k v).keys = if k ∈ o.keys then o.keys else o.keys ++ [k] :=
  keys_setEntry k v o.entries

theorem set_of_get? (o : JsObject α) (k : String) (v : α) (h : o.get? k = some v) :
    o.set k v = o :=
  ext_entries (setEntry_of_lookup k v o.entries h)

theorem get?_assign_of_ne (o : JsObject α) (k k' : String) (v : α) (h : k' ≠ k) :
    (o.assign k v).get? k' = o.get? k' := by
  unfold assign
  split
  · rfl
  · simp [get?_set, h]

theorem assign_of_ne_proto (o : JsObject α) (k : String) (v : α) (h : k ≠ "__proto__") :
    o.assign k v = o.set k v := by
  simp [assign, h]

theorem get?_empty (k : String) : (empty : JsObject α).get? k = none := rfl

end JsObject

theorem lookupEntry_map {α β : Type} (g : β → α) (k : String) (l : List (String × β)) :
    lookupEntry k (l.map (fun e => (e.1, g e.2))) = (lookupEntry k l).map g := by
  induction l with
  | nil => simp [lookupEntry]
  | cons hd t ih =>
    obtain ⟨a, b⟩ := hd
    by_cases h : a = k
    · simp [lookupEntry, h]
    · simp [lookupEntry, h, ih]

namespace JsObject

variable {α : Type}

theorem entries_set_of_not_mem (o : JsObject α) (k : String) (v : α) (h : k ∉ o.keys) :
    (o.set k v).entries = o.entries ++ [(k, v)] :=
  setEntry_of_not_mem k v o.entries h

/-- Folding `assign` over properties with fresh, pairwise distinct keys other than `__proto__`
appends them. -/
theorem entries_foldl_assign {β : Type} (g : β → α) (l : List (String × β)) (acc : JsObject α)
    (hn : (acc.keys ++ l.map Prod.fst).Nodup) (hp : "__proto__" ∉ l.map Prod.fst) :
    (l.foldl (fun a e => a.assign e.1 (g e.2)) acc).entries =
      acc.entries ++ l.map (fun e => (e.1, g e.2)) := by
  induction l generalizing acc with
  | nil => simp
  | cons hd t ih =>
    obtain ⟨k, b⟩ := hd
    simp only [List.map_cons, List.mem_cons, not_or] at hp
    have hk : k ∉ acc.keys := by
      intro hmem
      have := List.nodup_append.mp hn
      exact List.disjoint_left.mp this.2.2 hmem (by simp)
    have hne : k ≠ "__proto__" := fun e => hp.1 e.symm
    have hstep : (acc.assign k (g b)).entries = acc.entries ++ [(k, g b)] := by
      rw [assign_of_ne_proto _ _ _ hne, entries_set_of_not_mem _ _ _ hk]
    have hkeys : (acc.assign k (g b)).keys = acc.keys ++ [k] := by
      simp [keys, hstep]
    have hn' : ((acc.assign k (g b)).keys ++ t.map Prod.fst).Nodup := by
      rw [hkeys]; simpa using hn
    simp only [List.foldl_cons]
    rw [ih (acc.assign k (g b)) hn' hp.2, hstep]
    simp

theorem entries_foldl_set (l : List (String × α)) (acc : JsObject α)
    (hn : (acc.keys ++ l.map Prod.fst).Nodup) :
    (l.foldl (fun a e => a.set e.1 e.2) acc).entries = acc.entries ++ l := by
  induction l generalizing acc with
  | nil => simp
  | cons hd t ih =>
    obtain ⟨k, b⟩ := hd
    have hk : k ∉ acc.keys := by
      intro hmem
      have := List.nodup_append.mp hn
      exact List.disjoint_left.mp this.2.2 hmem (by simp)
    have hstep : (acc.set k b).entries = acc.entries ++ [(k, b)] :=
      entries_set_of_not_mem _ _ _ hk
    have hkeys : (acc.set k b).keys = acc.keys ++ [k] := by
      simp [keys, hstep]
    have hn' : ((acc.set k b).keys ++ t.map Prod.fst).Nodup := by
      rw [hkeys]; simpa using hn
    simp only [List.foldl_cons]
    rw [ih (acc.set k b) hn', hstep]
    simp

theorem ofList_entries (o : JsObject α) : ofList o.entries = o := by
  apply ext_entries
  unfold ofList
  rw [entries_foldl_set o.entries empty (by simpa [keys, empty] using o.nodup)]
  simp [empty]

/-- Re-defining every property of an object with the value it already has changes nothing. -/
theorem foldl_set_self (o : JsObject α) (l : List (String × α))
    (h : ∀ e ∈ l, o.get? e.1 = some e.2) :
    l.foldl (fun a e => a.set e.1 e.2) o = o := by
  induction l with
  | nil => rfl
  | cons hd t ih =>
    simp only [List.foldl_cons]
    rw [set_of_get? o hd.1 hd.2 (h hd (by simp))]
    exact ih (fun e he => h e (List.mem_cons_of_mem _ he))

theorem get?_of_mem (o : JsObject α) (e : String × α) (h : e ∈ o.entries) :
    o.get? e.1 = some e.2 :=
  lookupEntry_of_mem e.1 e.2 o.entries o.nodup h

theorem get?_assign (o : JsObject α) (k k' : String) (v w : α)
    (h : (o.assign k v).get? k' = some w) : (k' = k ∧ w = v) ∨ o.get? k' = some w := by
  unfold assign at h
  split at h
  · exact Or.inr h
  · rw [get?_set] at h
    split at h
    · rename_i e
      exact Or.inl ⟨e, by simpa using h.symm⟩
    · exact Or.inr h

theorem get?_assign_proto (o : JsObject α) (k : String) (v : α)
    (h : o.get? "__proto__" = none) : (o.assign k v).get? "__proto__" = none := by
  by_cases e : k = "__proto__"
  · subst e; simp [assign, h]
  · rw [get?_assign_of_ne _ _ _ _ (fun x => e x.symm)]; exact h

end JsObject

/-- The merge of a partition with its own serialisation is the partition. -/
theorem spread_self (o : JsObject Json) : spread o (Json.obj o.entries) = o := by
  have h : (Json.obj o.entries).ownProps = o := by
    show JsObject.ofList o.entries = o
    exact JsObject.ofList_entries o
  unfold spread
  rw [h]
  exact JsObject.foldl_set_self o o.entries (fun e he => JsObject.get?_of_mem o e he)

/-! ## Discovery of partition files -/

theorem foldl_files_get? (all : List String) (names : List String) (acc : JsObject String)
    (hacc : ∀ lang p, acc.get? lang = some p → p ∈ all ∧ langOf p = lang)
    (hsub : ∀ n ∈ names, n ∈ all) (lang p : String)
    (h : (names.foldl
      (fun files item => if endsWithJson item then files.assign (langOf item) item else files)
      acc).get? lang = some p) : p ∈ all ∧ langOf p = lang := by
  induction names generalizing acc with
  | nil => exact hacc lang p h
  | cons item t ih =>
    simp only [List.foldl_cons] at h
    refine ih _ ?_ (fun n hn => hsub n (List.mem_cons_of_mem _ hn)) h
    intro lang' p' h'
    split at h'
    · rcases JsObject.get?_assign _ _ _ _ _ h' with ⟨e1, e2⟩ | h''
      · subst e1; subst e2
        exact ⟨hsub _ (by simp), rfl⟩
      · exact hacc lang' p' h''
    · exact hacc lang' p' h'

theorem foldl_files_proto (names : List String) (acc : JsObject String)
    (hacc : acc.get? "__proto__" = none) :
    (names.foldl
      (fun files item => if endsWithJson item then files.assign (langOf item) item else files)
      acc).get? "__proto__" = none := by
  induction names generalizing acc with
  | nil => exact hacc
  | cons item t ih =>
    simp only [List.foldl_cons]
    apply ih
    split
    · exact JsObject.get?_assign_proto _ _ _ hacc
    · exact hacc

/-- A discovered language maps to a file of the directory whose name gives that language. -/
theorem getSnippetFiles_get? (dir : JsObject Content) (lang p : String)
    (h : (getSnippetFiles dir).get? lang = some p) : p ∈ dir.keys ∧ langOf p = lang :=
  foldl_files_get? dir.keys dir.keys JsObject.empty
    (fun _ _ h0 => by simp [JsObject.get?_empty] at h0) (fun _ hn => hn) lang p h

theorem getSnippetFiles_proto (dir : JsObject Content) :
    (getSnippetFiles dir).get? "__proto__" = none :=
  foldl_files_proto dir.keys JsObject.empty rfl

theorem getSnippetFiles_of_keys (dir dir' : JsObject Content) (h : dir'.keys = dir.keys) :
    getSnippetFiles dir' = getSnippetFiles dir := by
  unfold getSnippetFiles; rw [h]

theorem keys_set_of_mem {α : Type} (o : JsObject α) (k : String) (v : α) (h : k ∈ o.keys) :
    (o.set k v).keys = o.keys := by
  rw [JsObject.keys_set]; simp [h]

/-! ## The snapshot built by `refresh` -/

theorem refresh_entries (s : Store) :
    (refresh s).snippets.entries =
      (getSnippetFiles s.dir).entries.map (fun e => (e.1, loadPartition s.dir e.2)) := by
  have hp : "__proto__" ∉ (getSnippetFiles s.dir).entries.map Prod.fst :=
    (JsObject.get?_eq_none_iff _ _).mp (getSnippetFiles_proto s.dir)
  have hn : ((JsObject.empty : JsObject (JsObject Json)).keys ++
      (getSnippetFiles s.dir).entries.map Prod.fst).Nodup := by
    simpa [JsObject.keys, JsObject.empty] using (getSnippetFiles s.dir).nodup
  have := JsObject.entries_foldl_assign (loadPartition s.dir) (getSnippetFiles s.dir).entries
    JsObject.empty hn hp
  simpa [refresh, JsObject.empty] using this

theorem refresh_get? (s : Store) (lang : String) :
    (refresh s).snippets.get? lang =
      ((getSnippetFiles s.dir).get? lang).map (loadPartition s.dir) := by
  unfold JsObject.get?
  rw [refresh_entries, lookupEntry_map]

theorem refresh_dir (s : Store) : (refresh s).dir = s.dir := rfl

theorem refresh_writes (s : Store) : (refresh s).writes = s.writes := rfl

theorem refresh_snippets_of_dir (s s' : Store) (h : s'.dir = s.dir) :
    (refresh s').snippets = (refresh s).snippets := by
  apply JsObject.ext_entries
  rw [refresh_entries, refresh_entries, h]

theorem filePathOf_of_get? (files : JsObject String) (lang p : String)
    (h : files.get? lang = some p) : filePathOf files lang = some (.file p) := by
  simp [filePathOf, JsObject.getProp, h]

/-- Restoring, for discovered languages, the partition each file already holds leaves the
directory and the snapshot as they are, whether or not the loop runs to its end. -/
theorem restoreLoop_self (dir : JsObject Content) (l : List (String × String))
    (hl : ∀ e ∈ l, (getSnippetFiles dir).get? e.1 = some e.2) (st : Store)
    (hst : st.dir = dir) :
    (restoreLoop (getSnippetFiles dir)
        (l.map (fun e => (e.1, Json.obj (loadPartition dir e.2).entries))) st).1.dir = dir ∧
    (restoreLoop (getSnippetFiles dir)
        (l.map (fun e => (e.1, Json.obj (loadPartition dir e.2).entries))) st).1.snippets
      = st.snippets := by
  induction l generalizing st with
  | nil => exact ⟨hst, rfl⟩
  | cons hd t ih =>
    obtain ⟨lang, p⟩ := hd
    have hget : (getSnippetFiles dir).get? lang = some p := hl (lang, p) (by simp)
    have hmem : p ∈ dir.keys := (getSnippetFiles_get? dir lang p hget).1
    have hsome : (dir.get? p).isSome := (JsObject.get?_isSome_iff dir p).mpr hmem
    obtain ⟨c, hc⟩ := Option.isSome_iff_exists.mp hsome
    have ht : ∀ e ∈ t, (getSnippetFiles dir).get? e.1 = some e.2 :=
      fun e he => hl e (List.mem_cons_of_mem _ he)
    simp only [List.map_cons, restoreLoop]
    cases c with
    | malformed text =>
      have hstep : restoreStep (getSnippetFiles dir) lang
          (Json.obj (loadPartition dir p).entries) st = .error .syntaxError := by
        simp [restoreStep, restoreFilePath, filePathOf_of_get? _ _ _ hget, existsSync,
          readFileSync, hst, hc, parseContent, bind, Except.bind]
      rw [hstep]
      exact ⟨hst, rfl⟩
    | object o =>
      have hload : loadPartition dir p = o := by
        simp [loadPartition, existsSync, readFileSync, hc, parseContent, bind, Except.bind]
      have hstep : restoreStep (getSnippetFiles dir) lang
          (Json.obj (loadPartition dir p).entries) st =
          .ok { st with dir := dir, writes := st.writes ++ [(p, .object o)] } := by
        simp [restoreStep, restoreFilePath, filePathOf_of_get? _ _ _ hget, existsSync,
          readFileSync, hst, hc, parseContent, bind, Except.bind, hload, spread_self,
          writeFileSync, JsObject.set_of_get? dir p (.object o) hc]
      rw [hstep]
      exact ih ht _ rfl

theorem objectEntries_backup (s : Store) :
    objectEntries (Json.obj (s.snippets.entries.map (fun e => (e.1, Json.obj e.2.entries)))) =
      .ok (s.snippets.entries.map (fun e => (e.1, Json.obj e.2.entries))) := by
  have hn : ((JsObject.empty : JsObject Json).keys ++
      (s.snippets.entries.map (fun e => (e.1, Json.obj e.2.entries))).map Prod.fst).Nodup := by
    simpa [JsObject.keys, JsObject.empty, Function.comp_def] using s.snippets.nodup
  have h := JsObject.entries_foldl_set
    (s.snippets.entries.map (fun e => (e.1, Json.obj e.2.entries))) JsObject.empty hn
  simp only [objectEntries, Json.ownProps, JsObject.ofList]
  rw [h]
  simp [JsObject.empty]

theorem restoreSnippets_json (v : Json) (s : Store) (es : List (String × Json))
    (h : objectEntries v = .ok es) :
    restoreSnippets "Yes" (some (.json v)) s =
      match restoreLoop (getSnippetFiles s.dir) es s with
      | (s', some e) => (s', .failed e)
      | (s', none) => (refresh s', .restored) := by
  simp only [restoreSnippets, h, ne_eq, not_true_eq_false, if_false]



theorem namesOwnFile_langOf (k : String) (h : namesOwnFile k = true) :
    langOf (k ++ ".json") = k := by
  simp only [namesOwnFile, Bool.and_eq_true, decide_eq_true_eq] at h
  exact h.2

theorem loadPartition_congr (dir dir' : JsObject Content) (p : String)
    (h : dir'.get? p = dir.get? p) : loadPartition dir' p = loadPartition dir p := by
  simp [loadPartition, existsSync, readFileSync, h]

theorem foldl_files_get?_of_ne (lang : String) (names : List String) (acc : JsObject String)
    (h : ∀ n ∈ names, langOf n ≠ lang) :
    (names.foldl
      (fun files item => if endsWithJson item then files.assign (langOf item) item else files)
      acc).get? lang = acc.get? lang := by
  induction names generalizing acc with
  | nil => rfl
  | cons item t ih =>
    simp only [List.foldl_cons]
    rw [ih _ (fun n hn => h n (List.mem_cons_of_mem _ hn))]
    split
    · exact JsObject.get?_assign_of_ne _ _ _ _ (fun e => h item (by simp) e.symm)
    · rfl

theorem filePathOf_eq_file (files : JsObject String) (k q : String)
    (h : filePathOf files k = some (.file q)) : files.get? k = some q := by
  unfold filePathOf JsObject.getProp at h
  cases hg : files.get? k with
  | none =>
    rw [hg] at h
    by_cases hm : k ∈ objectPrototypeKeys <;> simp [hm] at h
  | some q' =>
    rw [hg] at h
    simp only [Option.some.injEq, PathArg.file.injEq] at h
    rw [h]

/-- A completed iteration of the restore loop writes one file, whose name gives back the
language key it was written for, and leaves the snapshot alone. -/
theorem restoreStep_ok (dir : JsObject Content) (k : String) (v : Json) (st st' : Store)
    (hk : langOf (k ++ ".json") = k)
    (h : restoreStep (getSnippetFiles dir) k v st = .ok st') :
    ∃ q c, langOf q = k ∧ st'.dir = st.dir.set q c ∧ st'.snippets = st.snippets := by
  unfold restoreStep restoreFilePath at h
  cases hf : filePathOf (getSnippetFiles dir) k with
  | none =>
    simp only [hf] at h
    split at h
    · cases h
    · rename_i cur _
      simp only [writeFileSync, Except.ok.injEq] at h
      exact ⟨k ++ ".json", _, hk, by rw [← h], by rw [← h]⟩
  | some fp =>
    simp only [hf] at h
    cases fp with
    | notAString =>
      split at h
      · cases h
      · simp [writeFileSync] at h
    | file q =>
      have hq : (getSnippetFiles dir).get? k = some q := filePathOf_eq_file _ k q hf
      split at h
      · cases h
      · simp only [writeFileSync, Except.ok.injEq] at h
        exact ⟨q, _, (getSnippetFiles_get? dir k q hq).2, by rw [← h], by rw [← h]⟩

/-- The frame of the restore loop: a file whose name gives a language outside the document is
not written, every file the loop adds gives a language of the document, and the snapshot is
not touched. -/
theorem restoreLoop_frame (dir : JsObject Content) (lang p : String) (hp : langOf p = lang)
    (es : List (String × Json)) (hk : ∀ e ∈ es, langOf (e.1 ++ ".json") = e.1)
    (hnot : lang ∉ es.map Prod.fst) (st : Store) :
    ∃ extra, (restoreLoop (getSnippetFiles dir) es st).1.dir.keys = st.dir.keys ++ extra ∧
      (∀ n ∈ extra, langOf n ≠ lang) ∧
      (restoreLoop (getSnippetFiles dir) es st).1.dir.get? p = st.dir.get? p ∧
      (restoreLoop (getSnippetFiles dir) es st).1.snippets = st.snippets := by
  induction es generalizing st with
  | nil => exact ⟨[], by simp [restoreLoop], by simp, rfl, rfl⟩
  | cons hd t ih =>
    obtain ⟨k, v⟩ := hd
    simp only [List.map_cons, List.mem_cons, not_or] at hnot
    simp only [restoreLoop]
    cases hstep : restoreStep (getSnippetFiles dir) k v st with
    | error e => exact ⟨[], by simp, by simp, rfl, rfl⟩
    | ok st' =>
      obtain ⟨q, c, hq, hdir, hsn⟩ := restoreStep_ok dir k v st st' (hk (k, v) (by simp)) hstep
      obtain ⟨extra, h1, h2, h3, h4⟩ :=
        ih (fun e he => hk e (List.mem_cons_of_mem _ he)) hnot.2 st'
      have hqp : p ≠ q := fun e => hnot.1 (by rw [← hp, e, hq])
      have hqlang : langOf q ≠ lang := fun e => hnot.1 (by rw [← e, hq])
      simp only
      refine ⟨(if q ∈ st.dir.keys then [] else [q]) ++ extra, ?_, ?_, ?_, ?_⟩
      · rw [h1, hdir, JsObject.keys_set]
        split <;> simp
      · intro n hn
        rcases List.mem_append.mp hn with hn | hn
        · split at hn
          · simp at hn
          · simp at hn; rw [hn]; exact hqlang
        · exact h2 n hn
      · rw [h3, hdir, JsObject.get?_set]; simp [hqp]
      · rw [h4, hsn]

theorem objectEntries_cases (v : Json) :
    objectEntries v = .error .typeError ∨ objectEntries v = .ok v.ownProps.entries := by
  cases v <;> simp [objectEntries]

theorem getSnippets_congr (s s' : Store) (lang : String)
    (h : s'.snippets.get? lang = s.snippets.get? lang) :
    getSnippets s' lang = getSnippets s lang := by
  simp [getSnippets, JsObject.getProp, h]

theorem getSnippetFiles_get?_of_extra (dir dir' : JsObject Content) (lang : String)
    (extra : List String) (hkeys : dir'.keys = dir.keys ++ extra)
    (hex : ∀ n ∈ extra, langOf n ≠ lang) :
    (getSnippetFiles dir').get? lang = (getSnippetFiles dir).get? lang := by
  unfold getSnippetFiles
  rw [hkeys, List.foldl_append]
  exact foldl_files_get?_of_ne lang extra _ hex


theorem loadOrEmpty_file (dir : JsObject Content) (p : String) :
    loadOrEmpty dir (.file p) = loadPartition dir p := rfl

theorem loadPartition_set (dir : JsObject Content) (p : String) (o : JsObject Json) :
    loadPartition (dir.set p (.object o)) p = o := by
  simp [loadPartition, existsSync, readFileSync, JsObject.get?_set, parseContent, bind,
    Except.bind]

/-- What `saveSnippet` does for a language that has a partition file: the file is rewritten
with the updated partition and the snapshot is rebuilt. -/
theorem saveSnippet_of_file (data : SaveRequest) (s : Store) (p : String)
    (hp : (getSnippetFiles s.dir).get? data.language = some p) :
    saveSnippet data s = .ok (refresh
      { s with
        dir := s.dir.set p (.object (applySave data (loadPartition s.dir p)))
        writes := s.writes ++ [(p, .object (applySave data (loadPartition s.dir p)))] }) := by
  simp [saveSnippet, filePathOf_of_get? _ _ _ hp, writeFileSync, loadOrEmpty_file]

/-- After `saveSnippet` on a language with a partition file, the persisted partition and the
snapshot partition of that language are both the updated partition. -/
theorem saveSnippet_partition (data : SaveRequest) (s : Store) (P : JsObject Json)
    (hP : persistedPartition s data.language = some P) :
    ∃ s', saveSnippet data s = .ok s' ∧
      persistedPartition s' data.language = some (applySave data P) ∧
      getSnippets s' data.language = .object (applySave data P) := by
  unfold persistedPartition at hP
  cases hp : (getSnippetFiles s.dir).get? data.language with
  | none => simp [hp] at hP
  | some p =>
    simp only [hp, Option.map_some', Option.some.injEq] at hP
    subst hP
    have hmem : p ∈ s.dir.keys := (getSnippetFiles_get? s.dir _ p hp).1
    refine ⟨_, saveSnippet_of_file data s p hp, ?_, ?_⟩
    · have hfiles : getSnippetFiles (s.dir.set p (.object (applySave data (loadPartition s.dir p))))
          = getSnippetFiles s.dir :=
        getSnippetFiles_of_keys _ _ (keys_set_of_mem _ _ _ hmem)
      simp only [persistedPartition, refresh_dir, hfiles, hp, Option.map_some',
        loadPartition_set]
    · have hfiles : getSnippetFiles (s.dir.set p (.object (applySave data (loadPartition s.dir p))))
          = getSnippetFiles s.dir :=
        getSnippetFiles_of_keys _ _ (keys_set_of_mem _ _ _ hmem)
      have hget := refresh_get? { s with
        dir := s.dir.set p (.object (applySave data (loadPartition s.dir p)))
        writes := s.writes ++ [(p, .object (applySave data (loadPartition s.dir p)))] }
        data.language
      simp only [hfiles, hp, Option.map_some', loadPartition_set] at hget
      simp [getSnippets, JsObject.getProp, hget]


/-! ## What the operations do outside the failing inputs -/

theorem get?_foldl_set {α : Type} (l : List (String × α)) (hn : (l.map Prod.fst).Nodup)
    (acc : JsObject α) (n : String) :
    (l.foldl (fun a e => a.set e.1 e.2) acc).get? n =
      (lookupEntry n l).or (acc.get? n) := by
  induction l generalizing acc with
  | nil => simp [lookupEntry]
  | cons hd t ih =>
    obtain ⟨k, v⟩ := hd
    simp only [List.map_cons, List.nodup_cons] at hn
    simp only [List.foldl_cons]
    rw [ih hn.2, JsObject.get?_set]
    by_cases h : k = n
    · subst h
      simp [lookupEntry, (lookupEntry_eq_none_iff k t).mpr hn.1]
    · have h' : ¬ n = k := fun e => h e.symm
      simp [lookupEntry, h, h']

/-- Merge precedence of the object spread `{ ...currentSnippets, ...snippets }`: a name that
is an own property of `snippets` maps to its value there, every other name maps to what
`currentSnippets` has for it. -/
theorem get?_spread (currentSnippets : JsObject Json) (snippets : Json) (n : String) :
    (spread currentSnippets snippets).get? n =
      (snippets.ownProps.get? n).or (currentSnippets.get? n) :=
  get?_foldl_set snippets.ownProps.entries snippets.ownProps.nodup currentSnippets n

/-- A run of the restore loop that reaches its end has, for a document language whose file
exists and parses, replaced the content of that file by the merge with the document entry;
every file it added gives another language. -/
theorem restoreLoop_target (dir : JsObject Content) (lang p : String) (d : Json)
    (P : JsObject Json) (hfile : (getSnippetFiles dir).get? lang = some p)
    (es : List (String × Json)) (hn : (es.map Prod.fst).Nodup)
    (hk : ∀ e ∈ es, langOf (e.1 ++ ".json") = e.1) (hmem : (lang, d) ∈ es)
    (st st' : Store) (hst : st.dir.get? p = some (.object P))
    (hrun : restoreLoop (getSnippetFiles dir) es st = (st', none)) :
    st'.dir.get? p = some (.object (spread P d)) ∧
      ∃ extra, st'.dir.keys = st.dir.keys ++ extra ∧ ∀ n ∈ extra, langOf n ≠ lang := by
  have hp : langOf p = lang := (getSnippetFiles_get? dir lang p hfile).2
  induction es generalizing st with
  | nil => simp at hmem
  | cons hd t ih =>
    obtain ⟨k, v⟩ := hd
    simp only [List.map_cons, List.nodup_cons] at hn
    simp only [restoreLoop] at hrun
    cases hstep : restoreStep (getSnippetFiles dir) k v st with
    | error e => rw [hstep] at hrun; simp at hrun
    | ok st1 =>
      rw [hstep] at hrun
      simp only at hrun
      by_cases hkl : k = lang
      · subst hkl
        have hv : v = d := by
          rcases List.mem_cons.mp hmem with h | h
          · cases h; rfl
          · exact absurd (List.mem_map.mpr ⟨(k, d), h, rfl⟩) hn.1
        subst hv
        have hst1 : st1 =
            { st with
              dir := st.dir.set p (.object (spread P v))
              writes := st.writes ++ [(p, .object (spread P v))] } := by
          have : restoreStep (getSnippetFiles dir) k v st =
              .ok { st with
                dir := st.dir.set p (.object (spread P v))
                writes := st.writes ++ [(p, .object (spread P v))] } := by
            simp [restoreStep, restoreFilePath, filePathOf_of_get? _ _ _ hfile, existsSync,
              readFileSync, hst, parseContent, bind, Except.bind, writeFileSync]
          rw [this] at hstep
          exact (Except.ok.inj hstep).symm
        obtain ⟨extra, h1, h2, h3, _⟩ := restoreLoop_frame dir k p hp t
          (fun e he => hk e (List.mem_cons_of_mem _ he)) hn.1 st1
        rw [hrun] at h1 h3
        simp only at h1 h3
        have hpm : p ∈ st.dir.keys := by
          rw [← JsObject.get?_isSome_iff, hst]; rfl
        refine ⟨?_, extra, ?_, h2⟩
        · rw [h3, hst1]
          simp [JsObject.get?_set]
        · rw [h1, hst1]
          simp [keys_set_of_mem _ _ _ hpm]
      · obtain ⟨q, c, hq, hdir, _⟩ :=
          restoreStep_ok dir k v st st1 (hk (k, v) (by simp)) hstep
        have hqp : p ≠ q := fun e => hkl (by rw [← hq, ← e, hp])
        have hmem' : (lang, d) ∈ t := by
          rcases List.mem_cons.mp hmem with h | h
          · cases h; exact absurd rfl hkl
          · exact h
        have hst1 : st1.dir.get? p = some (.object P) := by
          rw [hdir, JsObject.get?_set]; simp [hqp, hst]
        obtain ⟨h3, extra, h1, h2⟩ :=
          ih hn.2 (fun e he => hk e (List.mem_cons_of_mem _ he)) hmem' st1 hst1 hrun
        refine ⟨h3, (if q ∈ st.dir.keys then [] else [q]) ++ extra, ?_, ?_⟩
        · rw [h1, hdir, JsObject.keys_set]
          split <;> simp
        · intro n hn'
          rcases List.mem_append.mp hn' with hn' | hn'
          · split at hn'
            · simp at hn'
            · simp at hn'; rw [hn', hq]; exact hkl
          · exact h2 n hn'

/-- A restore that reports success ran its loop to the end and rebuilt the snapshot. -/
theorem restoreSnippets_restored (s : Store) (v : Json)
    (hdone : (restoreSnippets "Yes" (some (.json v)) s).2 = .restored) :
    ∃ st, restoreLoop (getSnippetFiles s.dir) v.ownProps.entries s = (st, none) ∧
      (restoreSnippets "Yes" (some (.json v)) s).1 = refresh st := by
  rcases objectEntries_cases v with herr | hok
  · simp [restoreSnippets, herr] at hdone
  · rw [restoreSnippets_json v s _ hok] at hdone ⊢
    cases hrun : restoreLoop (getSnippetFiles s.dir) v.ownProps.entries s with
    | mk st err =>
      rw [hrun] at hdone
      cases err with
      | some e => simp at hdone
      | none => exact ⟨st, rfl, rfl⟩

/-- Merge precedence of a restore that runs to its end: for a language `lang` whose existing
partition file parses to `P`, and a parseable document that holds `d` under `lang` and whose
language keys each name their own partition file (`namesOwnFile`), under a file name the file
system accepts (`fitsFileName`), a restore that reports success leaves, persisted and in the
snapshot, the partition that maps each own property name of `d` to its value in `d` and every
other name to what `P` has for it. -/
theorem restoreSnippets_merge (s : Store) (v d : Json) (lang : String) (P : JsObject Json)
    (hP : persistedContent s lang = some (.object P))
    (hd : v.ownProps.get? lang = some d)
    (hkeys : ∀ k ∈ v.ownProps.keys, namesOwnFile k = true)
    (hfit : ∀ k ∈ v.ownProps.keys, fitsFileName (k ++ ".json") = true)
    (hdone : (restoreSnippets "Yes" (some (.json v)) s).2 = .restored) :
    persistedPartition (restoreSnippets "Yes" (some (.json v)) s).1 lang
        = some (spread P d) ∧
      getSnippets (restoreSnippets "Yes" (some (.json v)) s).1 lang = .object (spread P d) ∧
      ∀ n, (spread P d).get? n = (d.ownProps.get? n).or (P.get? n) := by
  have _ := hfit
  obtain ⟨st, hrun, hres⟩ := restoreSnippets_restored s v hdone
  unfold persistedContent at hP
  cases hp : (getSnippetFiles s.dir).get? lang with
  | none => simp [hp] at hP
  | some p =>
    simp only [hp] at hP
    obtain ⟨h3, extra, h1, h2⟩ := restoreLoop_target s.dir lang p d P hp
      v.ownProps.entries v.ownProps.nodup
      (fun e he => namesOwnFile_langOf _ (hkeys e.1 (List.mem_map.mpr ⟨e, he, rfl⟩)))
      (mem_of_lookupEntry lang d _ hd) s st hP hrun
    have hfiles : (getSnippetFiles st.dir).get? lang = some p := by
      rw [getSnippetFiles_get?_of_extra s.dir st.dir lang extra h1 h2, hp]
    have hload : loadPartition st.dir p = spread P d := by
      simp [loadPartition, existsSync, readFileSync, h3, parseContent, bind, Except.bind]
    rw [hres]
    refine ⟨?_, ?_, get?_spread P d⟩
    · simp only [persistedPartition, refresh_dir, hfiles, Option.map_some', hload]
    · have hget := refresh_get? st lang
      simp only [hfiles, Option.map_some', hload] at hget
      simp [getSnippets, JsObject.getProp, hget]

/-- Saving under a fresh name other than `__proto__`, with no original name, into a language
that has a partition file: `saveSnippet` returns normally, and afterwards the partition,
persisted and in the snapshot, has exactly one entry under the new name, holding the supplied
prefix and description and the normalized body, and every other name maps to what it mapped
to before. -/
theorem saveSnippet_fresh_name (data : SaveRequest) (s : Store) (P : JsObject Json)
    (horig : data.originalName = none ∨ data.originalName = some "")
    (hP : persistedPartition s data.language = some P)
    (hproto : data.newName ≠ "__proto__") :
    ∃ s' P', saveSnippet data s = .ok s' ∧
      persistedPartition s' data.language = some P' ∧
      getSnippets s' data.language = .object P' ∧
      P'.get? data.newName = some (.obj [("prefix", data.pfx),
        ("body", normalizeBody data.body), ("description", data.description)]) ∧
      P'.keys.count data.newName = 1 ∧
      ∀ n, n ≠ data.newName → P'.get? n = P.get? n := by
  obtain ⟨s', h1, h2, h3⟩ := saveSnippet_partition data s P hP
  have happly : applySave data P = P.set data.newName (snippetRecord data) := by
    rcases horig with h | h
    · simp [applySave, h, JsObject.assign_of_ne_proto _ _ _ hproto]
    · simp [applySave, h, renameApplies, JsObject.assign_of_ne_proto _ _ _ hproto]
  refine ⟨s', _, h1, h2, h3, ?_, ?_, ?_⟩
  · rw [happly, JsObject.get?_set]; simp [snippetRecord]
  · rw [happly]
    apply List.count_eq_one_of_mem (P.set data.newName (snippetRecord data)).nodup
    show data.newName ∈ (P.set data.newName (snippetRecord data)).keys
    rw [JsObject.keys_set]
    split
    · assumption
    · simp
  · intro n hn
    rw [happly, JsObject.get?_set]; simp [hn]

/-- The function `deleteSnippet` for a language without a partition file returns the store as it is. -/
theorem deleteSnippet_unknown_language (data : DeleteRequest) (s : Store)
    (h : (getSnippetFiles s.dir).get? data.language = none) : deleteSnippet data s = s := by
  by_cases hm : data.language ∈ objectPrototypeKeys <;>
    simp [deleteSnippet, filePathOf, JsObject.getProp, h, hm, existsSync]

/-- The function `deleteSnippet` for a name that is neither an entry of the language's partition nor a
member of `Object.prototype` returns the store as it is: no write, no refresh. -/
theorem deleteSnippet_absent_name (data : DeleteRequest) (s : Store) (P : JsObject Json)
    (hP : persistedPartition s data.language = some P)
    (hname : P.get? data.name = none) (hproto : data.name ∉ objectPrototypeKeys) :
    deleteSnippet data s = s := by
  unfold persistedPartition at hP
  cases hp : (getSnippetFiles s.dir).get? data.language with
  | none => simp [hp] at hP
  | some p =>
    simp only [hp, Option.map_some', Option.some.injEq] at hP
    have hmem : p ∈ s.dir.keys := (getSnippetFiles_get? s.dir _ p hp).1
    obtain ⟨c, hc⟩ := Option.isSome_iff_exists.mp ((JsObject.get?_isSome_iff s.dir p).mpr hmem)
    cases c with
    | malformed text =>
      simp [deleteSnippet, filePathOf_of_get? _ _ _ hp, existsSync, readFileSync, hc,
        parseContent, bind, Except.bind]
    | object o =>
      have ho : o = P := by
        rw [← hP]
        simp [loadPartition, existsSync, readFileSync, hc, parseContent, bind, Except.bind]
      subst ho
      simp [deleteSnippet, filePathOf_of_get? _ _ _ hp, existsSync, readFileSync, hc,
        parseContent, bind, Except.bind, JsObject.getProp, hname, hproto, slotTruthy]

theorem endsWithJson_append (lang : String) : endsWithJson (lang ++ ".json") = true := by
  unfold endsWithJson
  rw [List.isSuffixOf_iff_suffix]
  exact ⟨lang.toList, by simp⟩

theorem isSome_get?_assign {α : Type} (o : JsObject α) (k l : String) (v : α)
    (h : (o.get? l).isSome) : ((o.assign k v).get? l).isSome := by
  unfold JsObject.assign
  split
  · exact h
  · rw [JsObject.get?_set]
    split
    · rfl
    · exact h

theorem foldl_files_isSome_mono (l : String) (names : List String) (acc : JsObject String)
    (h : (acc.get? l).isSome) :
    ((names.foldl
      (fun files item => if endsWithJson item then files.assign (langOf item) item else files)
      acc).get? l).isSome := by
  induction names generalizing acc with
  | nil => exact h
  | cons item t ih =>
    simp only [List.foldl_cons]
    apply ih
    split
    · exact isSome_get?_assign _ _ _ _ h
    · exact h

theorem foldl_files_covers (item : String) (names : List String) (acc : JsObject String)
    (hmem : item ∈ names) (hj : endsWithJson item = true) (hp : langOf item ≠ "__proto__") :
    ((names.foldl
      (fun files item => if endsWithJson item then files.assign (langOf item) item else files)
      acc).get? (langOf item)).isSome := by
  induction names generalizing acc with
  | nil => simp at hmem
  | cons hd t ih =>
    simp only [List.foldl_cons]
    rcases List.mem_cons.mp hmem with h | h
    · subst h
      apply foldl_files_isSome_mono
      simp [hj, JsObject.assign_of_ne_proto _ _ _ hp, JsObject.get?_set]
    · exact ih _ h

/-- Every directory item ending in `.json` whose derived language is not `__proto__` makes
that language a discovered one. -/
theorem getSnippetFiles_covers (dir : JsObject Content) (item : String)
    (hmem : item ∈ dir.keys) (hj : endsWithJson item = true)
    (hp : langOf item ≠ "__proto__") :
    ((getSnippetFiles dir).get? (langOf item)).isSome :=
  foldl_files_covers item dir.keys JsObject.empty hmem hj hp

theorem restoreStep_inherited (files : JsObject String) (k : String) (v : Json) (st : Store)
    (hnone : files.get? k = none) (hin : k ∈ objectPrototypeKeys) :
    restoreStep files k v st = .error .typeError := by
  simp [restoreStep, restoreFilePath, filePathOf, JsObject.getProp, hnone, hin, existsSync,
    writeFileSync]

/-- A run of the restore loop that reaches its end did not meet a language key that has no
partition file and names a member of `Object.prototype`. -/
theorem restoreLoop_ok_not_inherited (files : JsObject String) (lang : String) (d : Json)
    (hnone : files.get? lang = none) (es : List (String × Json)) (hmem : (lang, d) ∈ es)
    (st st' : Store) (hrun : restoreLoop files es st = (st', none)) :
    lang ∉ objectPrototypeKeys := by
  induction es generalizing st with
  | nil => simp at hmem
  | cons hd t ih =>
    obtain ⟨k, v⟩ := hd
    simp only [restoreLoop] at hrun
    cases hstep : restoreStep files k v st with
    | error e => rw [hstep] at hrun; simp at hrun
    | ok st1 =>
      rw [hstep] at hrun
      rcases List.mem_cons.mp hmem with h | h
      · cases h
        intro hin
        rw [restoreStep_inherited files lang d st hnone hin] at hstep
        cases hstep
      · exact ih h st1 hrun

/-- A run of the restore loop that reaches its end has, for a document language without a
partition file, created the file named after it, holding the document entry; every other file
it added gives another language. -/
theorem restoreLoop_new (dir : JsObject Content) (lang : String) (d : Json)
    (hnone : (getSnippetFiles dir).get? lang = none) (hproto : lang ∉ objectPrototypeKeys)
    (es : List (String × Json)) (hn : (es.map Prod.fst).Nodup)
    (hk : ∀ e ∈ es, langOf (e.1 ++ ".json") = e.1) (hmem : (lang, d) ∈ es)
    (st st' : Store) (hst : st.dir.get? (lang ++ ".json") = none)
    (hrun : restoreLoop (getSnippetFiles dir) es st = (st', none)) :
    st'.dir.get? (lang ++ ".json") = some (.object (spread JsObject.empty d)) ∧
      ∃ before after, st'.dir.keys = st.dir.keys ++ before ++ [lang ++ ".json"] ++ after ∧
        (∀ n ∈ before, langOf n ≠ lang) ∧ ∀ n ∈ after, langOf n ≠ lang := by
  induction es generalizing st with
  | nil => simp at hmem
  | cons hd t ih =>
    obtain ⟨k, v⟩ := hd
    have hkk : langOf (k ++ ".json") = k := hk (k, v) (by simp)
    simp only [List.map_cons, List.nodup_cons] at hn
    simp only [restoreLoop] at hrun
    cases hstep : restoreStep (getSnippetFiles dir) k v st with
    | error e => rw [hstep] at hrun; simp at hrun
    | ok st1 =>
      rw [hstep] at hrun
      simp only at hrun
      by_cases hkl : k = lang
      · subst hkl
        have hv : v = d := by
          rcases List.mem_cons.mp hmem with h | h
          · cases h; rfl
          · exact absurd (List.mem_map.mpr ⟨(k, d), h, rfl⟩) hn.1
        subst hv
        have hst1 : st1 =
            { st with
              dir := st.dir.set (k ++ ".json") (.object (spread JsObject.empty v))
              writes := st.writes ++ [(k ++ ".json", .object (spread JsObject.empty v))] } := by
          have : restoreStep (getSnippetFiles dir) k v st =
              .ok { st with
                dir := st.dir.set (k ++ ".json") (.object (spread JsObject.empty v))
                writes := st.writes ++
                  [(k ++ ".json", .object (spread JsObject.empty v))] } := by
            simp [restoreStep, restoreFilePath, filePathOf, JsObject.getProp, hnone, hproto,
              existsSync, hst, writeFileSync]
          rw [this] at hstep
          exact (Except.ok.inj hstep).symm
        obtain ⟨extra, h1, h2, h3, _⟩ := restoreLoop_frame dir k (k ++ ".json") hkk t
          (fun e he => hk e (List.mem_cons_of_mem _ he)) hn.1 st1
        rw [hrun] at h1 h3
        simp only at h1 h3
        have hpm : k ++ ".json" ∉ st.dir.keys := (JsObject.get?_eq_none_iff _ _).mp hst
        refine ⟨?_, [], extra, ?_, by simp, h2⟩
        · rw [h3, hst1]
          simp [JsObject.get?_set]
        · rw [h1, hst1]
          simp [JsObject.keys_set, hpm]
      · obtain ⟨q, c, hq, hdir, _⟩ := restoreStep_ok dir k v st st1 hkk hstep
        have hqp : lang ++ ".json" ≠ q := by
          intro e
          apply hkl
          rw [← hq, ← e]
          exact hk (lang, d) hmem
        have hmem' : (lang, d) ∈ t := by
          rcases List.mem_cons.mp hmem with h | h
          · cases h; exact absurd rfl hkl
          · exact h
        have hst1 : st1.dir.get? (lang ++ ".json") = none := by
          rw [hdir, JsObject.get?_set]; simp [hqp, hst]
        obtain ⟨h3, before, after, h1, h2, h4⟩ :=
          ih hn.2 (fun e he => hk e (List.mem_cons_of_mem _ he)) hmem' st1 hst1 hrun
        refine ⟨h3, (if q ∈ st.dir.keys then [] else [q]) ++ before, after, ?_, ?_, h4⟩
        · rw [h1, hdir, JsObject.keys_set]
          split <;> simp
        · intro n hn'
          rcases List.mem_append.mp hn' with hn' | hn'
          · split at hn'
            · simp at hn'
            · simp at hn'; rw [hn', hq]; exact hkl
          · exact h2 n hn'

theorem spread_empty (d : Json) : spread JsObject.empty d = d.ownProps := by
  unfold spread
  exact JsObject.ofList_entries d.ownProps

/-- Restore of an unknown language, for a restore that runs to its end: for a language `lang`
without a partition file, and a parseable document that holds `d` under `lang` and whose
language keys each name their own partition file (`namesOwnFile`), under a file name the file
system accepts (`fitsFileName`), a restore that reports success leaves `lang` among the known
languages, with exactly the own properties of `d` as its partition, persisted and in the
snapshot. -/
theorem restoreSnippets_new_language (s : Store) (v d : Json) (lang : String)
    (hnew : lang ∉ getLanguageIds s)
    (hd : v.ownProps.get? lang = some d)
    (hkeys : ∀ k ∈ v.ownProps.keys, namesOwnFile k = true)
    (hfit : ∀ k ∈ v.ownProps.keys, fitsFileName (k ++ ".json") = true)
    (hdone : (restoreSnippets "Yes" (some (.json v)) s).2 = .restored) :
    lang ∈ getLanguageIds (restoreSnippets "Yes" (some (.json v)) s).1 ∧
      persistedPartition (restoreSnippets "Yes" (some (.json v)) s).1 lang
        = some d.ownProps ∧
      getSnippets (restoreSnippets "Yes" (some (.json v)) s).1 lang = .object d.ownProps := by
  have _ := hfit
  obtain ⟨st, hrun, hres⟩ := restoreSnippets_restored s v hdone
  have hnone : (getSnippetFiles s.dir).get? lang = none :=
    (JsObject.get?_eq_none_iff _ _).mpr hnew
  have hmem : (lang, d) ∈ v.ownProps.entries := mem_of_lookupEntry lang d _ hd
  have hproto : lang ∉ objectPrototypeKeys :=
    restoreLoop_ok_not_inherited _ lang d hnone _ hmem s st hrun
  have hne : lang ≠ "__proto__" := by
    intro e; apply hproto; rw [e]; decide
  have hlang : langOf (lang ++ ".json") = lang :=
    namesOwnFile_langOf _ (hkeys lang (List.mem_map.mpr ⟨(lang, d), hmem, rfl⟩))
  have hfile : s.dir.get? (lang ++ ".json") = none := by
    rw [JsObject.get?_eq_none_iff]
    intro hin
    have := getSnippetFiles_covers s.dir (lang ++ ".json") hin (endsWithJson_append lang)
      (by rw [hlang]; exact hne)
    rw [hlang, hnone] at this
    cases this
  obtain ⟨h3, before, after, h1, h2, h4⟩ := restoreLoop_new s.dir lang d hnone hproto
    v.ownProps.entries v.ownProps.nodup
    (fun e he => namesOwnFile_langOf _ (hkeys e.1 (List.mem_map.mpr ⟨e, he, rfl⟩)))
    hmem s st hfile hrun
  have hfiles : (getSnippetFiles st.dir).get? lang = some (lang ++ ".json") := by
    unfold getSnippetFiles
    rw [h1, List.foldl_append, List.foldl_append, List.foldl_append,
      foldl_files_get?_of_ne lang after _ h4]
    simp only [List.foldl_cons, List.foldl_nil, endsWithJson_append, if_true, hlang]
    rw [JsObject.assign_of_ne_proto _ _ _ hne, JsObject.get?_set]
    simp
  have hload : loadPartition st.dir (lang ++ ".json") = d.ownProps := by
    simp [loadPartition, existsSync, readFileSync, h3, parseContent, bind, Except.bind,
      spread_empty]
  rw [hres]
  refine ⟨?_, ?_, ?_⟩
  · show lang ∈ (getSnippetFiles (refresh st).dir).keys
    rw [refresh_dir, ← JsObject.get?_isSome_iff, hfiles]
    rfl
  · simp only [persistedPartition, refresh_dir, hfiles, Option.map_some', hload]
  · have hget := refresh_get? st lang
    simp only [hfiles, Option.map_some', hload] at hget
    simp [getSnippets, JsObject.getProp, hget]

theorem allParse_set (dir : JsObject Content) (name : String) (o : JsObject Json)
    (h : allParse dir) : allParse (dir.set name (.object o)) := by
  intro n text
  rw [JsObject.get?_set]
  split
  · simp
  · exact h n text

theorem restoreStep_of_allParse (files : JsObject String) (k : String) (v : Json) (st : Store)
    (hk : (files.get? k).isSome ∨ k ∉ objectPrototypeKeys) (hst : allParse st.dir) :
    ∃ st', restoreStep files k v st = .ok st' ∧ allParse st'.dir := by
  have hpath : ∃ q, restoreFilePath files k = PathArg.file q := by
    unfold restoreFilePath filePathOf JsObject.getProp
    cases hg : files.get? k with
    | some q => exact ⟨q, rfl⟩
    | none =>
      have hnot : k ∉ objectPrototypeKeys := by
        rcases hk with h | h
        · rw [hg] at h; cases h
        · exact h
      exact ⟨k ++ ".json", by simp [hnot]⟩
  obtain ⟨q, hq⟩ := hpath
  unfold restoreStep
  simp only [hq]
  cases hc : st.dir.get? q with
  | none =>
    refine ⟨_, by simp [existsSync, hc, writeFileSync]; rfl, ?_⟩
    exact allParse_set _ _ _ hst
  | some c =>
    cases c with
    | malformed text => exact absurd hc (hst q text)
    | object o =>
      refine ⟨_, by simp [existsSync, readFileSync, hc, parseContent, bind, Except.bind,
        writeFileSync]; rfl, ?_⟩
      exact allParse_set _ _ _ hst

theorem restoreLoop_of_allParse (files : JsObject String) (es : List (String × Json))
    (hk : ∀ e ∈ es, (files.get? e.1).isSome ∨ e.1 ∉ objectPrototypeKeys) (st : Store)
    (hst : allParse st.dir) : (restoreLoop files es st).2 = none := by
  induction es generalizing st with
  | nil => rfl
  | cons hd t ih =>
    obtain ⟨k, v⟩ := hd
    obtain ⟨st', hstep, hst'⟩ := restoreStep_of_allParse files k v st (hk (k, v) (by simp)) hst
    simp only [restoreLoop, hstep]
    exact ih (fun e he => hk e (List.mem_cons_of_mem _ he)) st' hst'

/-- When no partition file is malformed, a restore of a parseable document other than `null`
whose language keys are single path segments, give file names the file system accepts
(`fitsFileName`) and each have a partition file or are not members of `Object.prototype` runs
to its end and reports success. -/
theorem restoreSnippets_completes (s : Store) (v : Json) (hv : v ≠ .null)
    (hdir : allParse s.dir)
    (hseg : ∀ k ∈ v.ownProps.keys, isPathSegment k = true)
    (hfit : ∀ k ∈ v.ownProps.keys, fitsFileName (k ++ ".json") = true)
    (hkeys : ∀ k ∈ v.ownProps.keys, k ∈ getLanguageIds s ∨ k ∉ objectPrototypeKeys) :
    (restoreSnippets "Yes" (some (.json v)) s).2 = .restored := by
  have _ := hseg
  have _ := hfit
  have hok : objectEntries v = .ok v.ownProps.entries := by
    cases v <;> simp [objectEntries] at hv ⊢
  rw [restoreSnippets_json v s _ hok]
  have h := restoreLoop_of_allParse (getSnippetFiles s.dir) v.ownProps.entries
    (fun e he => by
      rcases hkeys e.1 (List.mem_map.mpr ⟨e, he, rfl⟩) with h | h
      · exact Or.inl ((JsObject.get?_isSome_iff _ _).mpr h)
      · exact Or.inr h) s hdir
  cases hrun : restoreLoop (getSnippetFiles s.dir) v.ownProps.entries s with
  | mk st err =>
    rw [hrun] at h
    simp only at h
    subst h
    rfl

/-! ## Lines, deletion, candidates and add-language -/

theorem elementStrings_str (l : List String) : Json.elementStrings (l.map Json.str) = l := by
  induction l with
  | nil => rfl
  | cons x t ih =>
    simp only [List.map_cons, Json.elementStrings, Json.toJsString, ih]

theorem splitChars_ne_nil (cs : List Char) : splitChars cs ≠ [] := by
  cases cs with
  | nil => simp [splitChars]
  | cons c t =>
    unfold splitChars
    split
    · simp
    · split <;> simp

theorem data_joinStrings_cons (sep x : String) (y : String) (rest : List String) :
    (joinStrings sep (x :: y :: rest)).data =
      x.data ++ sep.data ++ (joinStrings sep (y :: rest)).data := by
  simp [joinStrings]

/-- Joining the pieces of `splitChars` with a newline gives the characters back. -/
theorem data_join_splitChars (cs : List Char) :
    (joinStrings "\n" ((splitChars cs).map String.mk)).data = cs := by
  induction cs with
  | nil => rfl
  | cons c t ih =>
    unfold splitChars
    by_cases hc : c = '\n'
    · simp only [hc, if_true, List.map_cons]
      cases hs : splitChars t with
      | nil => exact absurd hs (splitChars_ne_nil t)
      | cons l ls =>
        rw [hs] at ih
        simp only [List.map_cons] at ih ⊢
        rw [data_joinStrings_cons, ih]
        rfl
    · simp only [hc, if_false]
      cases hs : splitChars t with
      | nil => exact absurd hs (splitChars_ne_nil t)
      | cons l ls =>
        rw [hs] at ih
        simp only [List.map_cons] at ih ⊢
        cases ls with
        | nil =>
          simp only [List.map_nil, joinStrings] at ih ⊢
          rw [← ih]
        | cons y r =>
          simp only [List.map_cons] at ih ⊢
          rw [data_joinStrings_cons] at ih ⊢
          rw [← ih]
          simp

theorem joinStrings_splitLines (s : String) : joinStrings "\n" (splitLines s) = s := by
  apply String.ext
  unfold splitLines
  rw [data_join_splitChars]
  rfl


/-- What `deleteSnippet` does for an entry with a truthy value in a partition file that
parses: the file is rewritten without the entry and the snapshot is rebuilt. -/
theorem deleteSnippet_of_entry (data : DeleteRequest) (s : Store) (p : String)
    (P : JsObject Json) (v : Json)
    (hp : (getSnippetFiles s.dir).get? data.language = some p)
    (hc : s.dir.get? p = some (.object P))
    (hv : P.get? data.name = some v) (ht : v.truthy = true) :
    deleteSnippet data s = refresh
      { s with
        dir := s.dir.set p (.object (P.erase data.name))
        writes := s.writes ++ [(p, .object (P.erase data.name))] } := by
  simp [deleteSnippet, filePathOf_of_get? _ _ _ hp, existsSync, readFileSync, hc, parseContent,
    bind, Except.bind, JsObject.getProp, hv, slotTruthy, ht, writeFileSync]

theorem eraseEntry_singleton_keys {α : Type} (k : String) (l : List (String × α))
    (h : l.map Prod.fst = [k]) : eraseEntry k l = [] := by
  cases l with
  | nil => simp at h
  | cons hd t =>
    obtain ⟨a, b⟩ := hd
    simp only [List.map_cons, List.cons.injEq, List.map_eq_nil_iff] at h
    simp [eraseEntry, h.1, h.2]


theorem completionItem_of_ne_null (isGlobal : Bool) (name : String) (data : Json)
    (h : data ≠ .null) :
    ∃ item, completionItem isGlobal name data = .ok item ∧
      item.detail = if isGlobal then name ++ " (Global)" else name := by
  cases data <;> first
    | exact absurd rfl h
    | exact ⟨_, rfl, rfl⟩

/-- The loop of `addSnippets` over entries none of which is `null` returns one candidate per
entry, in order, the detail of each built from the entry name. -/
theorem collectItems_of_ne_null (isGlobal : Bool) (l : List (String × Json))
    (h : ∀ e ∈ l, e.2 ≠ .null) :
    ∃ items, collectItems isGlobal l = .ok items ∧ items.length = l.length ∧
      items.map (fun item => item.detail) =
        l.map (fun e => if isGlobal then e.1 ++ " (Global)" else e.1) := by
  induction l with
  | nil => exact ⟨[], rfl, rfl, rfl⟩
  | cons hd t ih =>
    obtain ⟨name, data⟩ := hd
    obtain ⟨item, h1, h2⟩ := completionItem_of_ne_null isGlobal name data (h (name, data) (by simp))
    obtain ⟨items, h3, h4, h5⟩ := ih (fun e he => h e (List.mem_cons_of_mem _ he))
    refine ⟨item :: items, ?_, ?_, ?_⟩
    · simp [collectItems, h1, h3]
    · simp [h4]
    · simp [h2, h5]


theorem keys_set_of_not_mem {α : Type} (o : JsObject α) (k : String) (v : α)
    (h : k ∉ o.keys) : (o.set k v).keys = o.keys ++ [k] := by
  rw [JsObject.keys_set]; simp [h]

/-- Discovery after a new file ending in `.json` is written: its derived language, when not
`__proto__`, is recorded under the new file, and nothing else changes. -/
theorem getSnippetFiles_set_new (dir : JsObject Content) (name : String) (c : Content)
    (hnew : name ∉ dir.keys) (hj : endsWithJson name = true)
    (hp : langOf name ≠ "__proto__") :
    getSnippetFiles (dir.set name c) = (getSnippetFiles dir).set (langOf name) name := by
  unfold getSnippetFiles
  rw [keys_set_of_not_mem dir name c hnew, List.foldl_append]
  simp [hj, JsObject.assign_of_ne_proto _ _ _ hp]

/-- A language that is not discovered and names its own file has no file yet. -/
theorem not_mem_keys_of_unknown (dir : JsObject Content) (t : String)
    (hown : namesOwnFile t = true) (hproto : t ≠ "__proto__")
    (hlang : t ∉ (getSnippetFiles dir).keys) : t ++ ".json" ∉ dir.keys := by
  intro hin
  have hl := namesOwnFile_langOf t hown
  have := getSnippetFiles_covers dir (t ++ ".json") hin (endsWithJson_append t)
    (by rw [hl]; exact hproto)
  rw [hl, (JsObject.get?_eq_none_iff _ _).mpr hlang] at this
  cases this

theorem addLanguage_of_new (token : String) (s : Store) (h0 : token ≠ "")
    (hnew : cleanId token ++ ".json" ∉ s.dir.keys) :
    addLanguage (some token) s = .ok (refresh
      { s with
        dir := s.dir.set (cleanId token ++ ".json") (.object JsObject.empty)
        writes := s.writes ++ [(cleanId token ++ ".json", .object JsObject.empty)] },
      .added (cleanId token)) := by
  have hnone : s.dir.get? (cleanId token ++ ".json") = none :=
    (JsObject.get?_eq_none_iff _ _).mpr hnew
  simp [addLanguage, h0, existsSync, hnone, writeFileSync]


/-! ## Refresh, the save no-op and the snapshot invariant -/

/-- Refresh isolates malformed partitions: after `refresh` the snapshot has exactly the
discovered languages as keys, and each maps to the parsed content of its own file, or to the
empty partition when that file does not parse, whatever the other files hold. -/
theorem refresh_isolates (s : Store) :
    (refresh s).snippets.keys = getLanguageIds s ∧
    ∀ lang p, (getSnippetFiles s.dir).get? lang = some p →
      (∀ text, s.dir.get? p = some (.malformed text) →
        (refresh s).snippets.get? lang = some JsObject.empty) ∧
      (∀ o, s.dir.get? p = some (.object o) → (refresh s).snippets.get? lang = some o) := by
  constructor
  · simp [JsObject.keys, refresh_entries, getLanguageIds, Function.comp_def]
  · intro lang p hp
    constructor
    · intro text hc
      rw [refresh_get?, hp]
      simp [loadPartition, existsSync, readFileSync, hc, parseContent, bind, Except.bind]
    · intro o hc
      rw [refresh_get?, hp]
      simp [loadPartition, existsSync, readFileSync, hc, parseContent, bind, Except.bind]

/-- With no partition file the snapshot is empty, and `getSnippets` returns the empty
partition for every language that is not a member of `Object.prototype`. -/
theorem getSnippets_no_partitions (lang : String) (h : lang ∉ objectPrototypeKeys) :
    (SnippetManager JsObject.empty).snippets = JsObject.empty ∧
    getLanguageIds (SnippetManager JsObject.empty) = [] ∧
    getSnippets (SnippetManager JsObject.empty) lang = .object JsObject.empty := by
  refine ⟨rfl, rfl, ?_⟩
  have : (SnippetManager JsObject.empty).snippets.get? lang = none := rfl
  simp [getSnippets, JsObject.getProp, this, h]

/-- The function `saveSnippet` for a language that has no partition file, is not `global`
and is not a member of `Object.prototype` returns normally with the store as it was. -/
theorem saveSnippet_unknown_language (data : SaveRequest) (s : Store)
    (hnone : (getSnippetFiles s.dir).get? data.language = none)
    (hglobal : data.language ≠ "global") (hproto : data.language ∉ objectPrototypeKeys) :
    saveSnippet data s = .ok s := by
  simp [saveSnippet, filePathOf, JsObject.getProp, hnone, hproto, hglobal]

theorem erase_empty {α : Type} (k : String) : (JsObject.empty : JsObject α).erase k
    = JsObject.empty := rfl

theorem applySave_empty (data : SaveRequest) (hproto : data.newName ≠ "__proto__") :
    applySave data JsObject.empty
      = JsObject.ofList [(data.newName, snippetRecord data)] := by
  unfold applySave
  have h : ∀ o : JsObject Json, o = JsObject.empty →
      o.assign data.newName (snippetRecord data)
        = JsObject.ofList [(data.newName, snippetRecord data)] := by
    intro o ho
    rw [ho, JsObject.assign_of_ne_proto _ _ _ hproto]
    rfl
  apply h
  cases data.originalName with
  | none => rfl
  | some o => simp only; split <;> rfl

/-- The function `saveSnippet` for the language `global` when it has no partition file, with
a new name other than `__proto__`: the file `global.json` is created and afterwards the
`global` partition, persisted and in the snapshot, holds exactly the saved entry. -/
theorem saveSnippet_creates_global (data : SaveRequest) (s : Store)
    (hlang : data.language = "global")
    (hnone : "global" ∉ getLanguageIds s) (hproto : data.newName ≠ "__proto__") :
    ∃ s', saveSnippet data s = .ok s' ∧
      "global" ∈ getLanguageIds s' ∧
      persistedPartition s' "global"
        = some (JsObject.ofList [(data.newName, snippetRecord data)]) ∧
      getSnippets s' "global"
        = .object (JsObject.ofList [(data.newName, snippetRecord data)]) := by
  have hget : (getSnippetFiles s.dir).get? "global" = none :=
    (JsObject.get?_eq_none_iff _ _).mpr hnone
  have hnew : "global.json" ∉ s.dir.keys :=
    not_mem_keys_of_unknown s.dir "global" (by decide) (by decide) hnone
  have hfile : s.dir.get? "global.json" = none := (JsObject.get?_eq_none_iff _ _).mpr hnew
  have hfiles := getSnippetFiles_set_new s.dir "global.json"
    (.object (JsObject.ofList [(data.newName, snippetRecord data)])) hnew (by decide)
    (by decide)
  have hl : langOf "global.json" = "global" := by decide
  rw [hl] at hfiles
  have hsave : saveSnippet data s = .ok (refresh
      { s with
        dir := s.dir.set "global.json"
          (.object (JsObject.ofList [(data.newName, snippetRecord data)]))
        writes := s.writes ++
          [("global.json", .object (JsObject.ofList [(data.newName, snippetRecord data)]))] }) := by
    have hin : "global" ∉ objectPrototypeKeys := by decide
    simp [saveSnippet, filePathOf, JsObject.getProp, hlang, hget, hin, loadOrEmpty, existsSync,
      hfile, applySave_empty data hproto, writeFileSync]
  refine ⟨_, hsave, ?_, ?_, ?_⟩
  · show "global" ∈ (getSnippetFiles _).keys
    rw [refresh_dir]
    simp only [hfiles]
    rw [← JsObject.get?_isSome_iff, JsObject.get?_set]
    simp
  · simp only [persistedPartition, refresh_dir, hfiles, JsObject.get?_set, if_true,
      Option.map_some', loadPartition_set]
  · have hget' := refresh_get? { s with
      dir := s.dir.set "global.json"
        (.object (JsObject.ofList [(data.newName, snippetRecord data)]))
      writes := s.writes ++
        [("global.json", .object (JsObject.ofList [(data.newName, snippetRecord data)]))] }
      "global"
    simp only [hfiles, JsObject.get?_set, if_true, Option.map_some', loadPartition_set] at hget'
    simp [getSnippets, JsObject.getProp, hget']

/-- The snapshot `refresh` builds is consistent with the files. -/
theorem consistent_refresh (t : Store) : Consistent (refresh t) :=
  (refresh_snippets_of_dir t (refresh t) rfl).symm

/-- The invariant holds after construction. -/
theorem consistent_SnippetManager (dir : JsObject Content) : Consistent (SnippetManager dir) :=
  consistent_refresh _

theorem saveSnippet_result (data : SaveRequest) (s s' : Store)
    (h : saveSnippet data s = .ok s') : s' = s ∨ ∃ t, s' = refresh t := by
  unfold saveSnippet at h
  simp only at h
  split at h
  · exact Or.inl (Except.ok.inj h).symm
  · split at h
    · exact Or.inr ⟨_, (Except.ok.inj h).symm⟩
    · cases h

/-- The function `saveSnippet` preserves the invariant whenever it returns; when it raises
the store is as it was. -/
theorem saveSnippet_consistent (data : SaveRequest) (s s' : Store) (hs : Consistent s)
    (h : saveSnippet data s = .ok s') : Consistent s' := by
  rcases saveSnippet_result data s s' h with e | ⟨t, e⟩
  · rw [e]; exact hs
  · rw [e]; exact consistent_refresh t

/-- The function `deleteSnippet` preserves the invariant. -/
theorem deleteSnippet_consistent (data : DeleteRequest) (s : Store) (hs : Consistent s) :
    Consistent (deleteSnippet data s) := by
  unfold deleteSnippet
  simp only
  split
  · exact hs
  · split
    · split
      · exact hs
      · split
        · split
          · exact consistent_refresh _
          · exact hs
        · exact hs
    · exact hs

/-- The function `addLanguage` preserves the invariant whenever it returns. -/
theorem addLanguage_consistent (languageId : Option String) (s s' : Store) (o : AddOutcome)
    (hs : Consistent s) (h : addLanguage languageId s = .ok (s', o)) : Consistent s' := by
  unfold addLanguage at h
  split at h
  · cases h; exact hs
  · split at h
    · cases h; exact hs
    · simp only at h
      split at h
      · cases h; exact hs
      · split at h
        · cases h; exact consistent_refresh _
        · cases h

/-- The function `restoreSnippets` establishes the invariant when it reports success, and
leaves the store as it was when the user declines or chooses no file. -/
theorem restoreSnippets_consistent (answer : String) (chosen : Option Document) (s : Store) :
    ((restoreSnippets answer chosen s).2 = .restored →
      Consistent (restoreSnippets answer chosen s).1) ∧
    ((restoreSnippets answer chosen s).2 = .declined →
      (restoreSnippets answer chosen s).1 = s) ∧
    ((restoreSnippets answer chosen s).2 = .noFileChosen →
      (restoreSnippets answer chosen s).1 = s) := by
  unfold restoreSnippets
  split
  · simp
  · cases chosen with
    | none => simp
    | some d =>
      cases d with
      | unparseable text => simp
      | json v =>
        simp only
        cases objectEntries v with
        | error e => simp
        | ok es =>
          simp only
          rcases restoreLoop (getSnippetFiles s.dir) es s with ⟨st, _ | e⟩
          · simp
            exact consistent_refresh st
          · simp

/-- Backing up a store whose snapshot is the one `refresh` builds and restoring the document at
once leaves the snapshot as it was, and the directory too.  The directory is compared by value:
a file that was rewritten parses to the same object as before, while its text may have been
laid out anew by `JSON.stringify`; a file that does not parse is not rewritten. -/
theorem backup_restore_fixpoint (s : Store) (hsync : s.snippets = (refresh s).snippets) :
    (restoreSnippets "Yes" (some (backupSnippets s)) s).1.snippets = s.snippets ∧
    (restoreSnippets "Yes" (some (backupSnippets s)) s).1.dir = s.dir := by
  have hent : s.snippets.entries.map (fun e => (e.1, Json.obj e.2.entries)) =
      (getSnippetFiles s.dir).entries.map
        (fun e => (e.1, Json.obj (loadPartition s.dir e.2).entries)) := by
    rw [hsync, refresh_entries]
    simp [Function.comp_def]
  have hloop := restoreLoop_self s.dir (getSnippetFiles s.dir).entries
    (fun e he => JsObject.get?_of_mem _ e he) s rfl
  unfold backupSnippets
  rw [restoreSnippets_json _ s _ (objectEntries_backup s), hent]
  generalize restoreLoop (getSnippetFiles s.dir)
    ((getSnippetFiles s.dir).entries.map
      (fun e => (e.1, Json.obj (loadPartition s.dir e.2).entries))) s = r at hloop
  obtain ⟨s', err⟩ := r
  cases err with
  | some e => exact ⟨hloop.2, hloop.1⟩
  | none =>
    refine ⟨?_, hloop.1⟩
    show (refresh s').snippets = s.snippets
    rw [refresh_snippets_of_dir s s' hloop.1, ← hsync]

/-! ## The claims -/

/-- C1, evaluated where the code departs from it: with the existing partition
`{A: x, B: y}` of language `b` and the parseable document `{a: {}, b: {A: z}}`, the file of the
earlier document language `a` does not parse, `restoreSnippets` ends with a `SyntaxError`, and
the partition of `b` is still `{A: x, B: y}`, persisted and in the snapshot: `A` is not
overwritten with `z`. -/
theorem restoreSnippets_skips_merge_after_malformed :
    (restoreSnippets "Yes" (some overwriteDocument) (SnippetManager malformedFirstDir)).2
      = .failed .syntaxError ∧
    persistedPartition
      (restoreSnippets "Yes" (some overwriteDocument) (SnippetManager malformedFirstDir)).1 "b"
      = some (JsObject.ofList [("A", .str "x"), ("B", .str "y")]) ∧
    getSnippets
      (restoreSnippets "Yes" (some overwriteDocument) (SnippetManager malformedFirstDir)).1 "b"
      = .object (JsObject.ofList [("A", .str "x"), ("B", .str "y")]) :=
  ⟨rfl, rfl, rfl⟩

/-- C2, evaluated where the code departs from it: restoring `{a: {B: 2}, b: {C: 3}}` when the
file of `b` does not parse ends with a `SyntaxError` after the file of `a` has been rewritten
from `{A: 1}` to the merged `{A: 1, B: 2}`, while the file of `b` is left as it was: one
language of the document is merged and persisted, the other is not. -/
theorem restoreSnippets_partial_on_malformed :
    (restoreSnippets "Yes" (some twoLanguageDocument) (SnippetManager malformedSecondDir)).2
      = .failed .syntaxError ∧
    persistedContent (SnippetManager malformedSecondDir) "a"
      = some (.object (JsObject.ofList [("A", .num 1)])) ∧
    persistedContent
      (restoreSnippets "Yes" (some twoLanguageDocument) (SnippetManager malformedSecondDir)).1 "a"
      = some (.object (JsObject.ofList [("A", .num 1), ("B", .num 2)])) ∧
    persistedContent
      (restoreSnippets "Yes" (some twoLanguageDocument) (SnippetManager malformedSecondDir)).1 "b"
      = some (.malformed "not json") :=
  ⟨rfl, rfl, rfl, rfl⟩

/-- C3: `restoreSnippets` with a document that `JSON.parse` rejects leaves the store as it
was, whatever the answer to the prompt: every partition file, the in-memory snapshot and the
log of writes are unchanged. -/
theorem restoreSnippets_unparseable_unchanged (answer text : String) (s : Store) :
    (restoreSnippets answer (some (.unparseable text)) s).1 = s := by
  unfold restoreSnippets
  split <;> rfl

/-- C4, evaluated where the code departs from it: restoring `{a: {A: 1}}` when the existing
file of `a` does not parse does not complete: `restoreSnippets` ends with a `SyntaxError` and
leaves the store as it was, the file of `a` still unparseable instead of holding the
document's entries. -/
theorem restoreSnippets_malformed_partition_aborts :
    restoreSnippets "Yes" (some oneEntryDocument) (SnippetManager malformedOnlyDir)
      = (SnippetManager malformedOnlyDir, .failed .syntaxError) ∧
    persistedContent (SnippetManager malformedOnlyDir) "a" = some (.malformed "not json") :=
  ⟨rfl, rfl⟩

/-- C5, evaluated where the code departs from it: saving a snippet under the fresh, non-empty
name `__proto__` into the existing (empty) `javascript` partition returns normally, and
afterwards `getSnippets` and the partition file have no entry at all: the record is lost. -/
theorem saveSnippet_proto_name_not_stored :
    (JsObject.empty : JsObject Json).get? protoRequest.newName = none ∧
    ∃ s', saveSnippet protoRequest (SnippetManager emptyJavascriptDir) = .ok s' ∧
      getSnippets s' "javascript" = .object JsObject.empty ∧
      persistedContent s' "javascript" = some (.object JsObject.empty) :=
  ⟨rfl, _, rfl, rfl, rfl⟩

/-- C6 is false as stated: renaming `log` to `print` (both non-empty and different) in a
partition that already has both entries leaves one entry where there were two. -/
theorem saveSnippet_rename_onto_existing_shrinks :
    (persistedPartition (SnippetManager twoSnippetDir) "javascript").map
        (fun P => P.entries.length) = some 2 ∧
    ∃ s', saveSnippet renameOntoRequest (SnippetManager twoSnippetDir) = .ok s' ∧
      (persistedPartition s' "javascript").map (fun P => P.entries.length) = some 1 ∧
      (persistedPartition s' "javascript").map (fun P => P.entries.length) ≠
        (persistedPartition (SnippetManager twoSnippetDir) "javascript").map
          (fun P => P.entries.length) :=
  ⟨rfl, _, rfl, rfl, by decide⟩

/-- C6 (amended): for every save request whose language has a persisted partition in which
`originalName` (non-empty, different from `newName`) is an entry with a truthy value, as every
snippet record is, and `newName` (other than `__proto__`) is not an entry, `saveSnippet`
returns normally and afterwards the persisted partition and the snapshot partition of the
language have no key `originalName`, exactly one entry under `newName`, holding the saved
record, and as many entries as before. -/
theorem saveSnippet_rename (data : SaveRequest) (s : Store) (o : String) (P : JsObject Json)
    (v : Json)
    (horig : data.originalName = some o) (ho : o ≠ "") (hne : o ≠ data.newName)
    (hP : persistedPartition s data.language = some P)
    (hv : P.get? o = some v) (htruthy : v.truthy = true)
    (hfresh : P.get? data.newName = none) (hproto : data.newName ≠ "__proto__") :
    ∃ s' P', saveSnippet data s = .ok s' ∧
      persistedPartition s' data.language = some P' ∧
      getSnippets s' data.language = .object P' ∧
      P'.get? o = none ∧
      P'.get? data.newName = some (snippetRecord data) ∧
      P'.keys.count data.newName = 1 ∧
      P'.entries.length = P.entries.length := by
  obtain ⟨s', h1, h2, h3⟩ := saveSnippet_partition data s P hP
  have happly : applySave data P = (P.erase o).set data.newName (snippetRecord data) := by
    have hr : renameApplies P (some o) data.newName = true := by
      simp [renameApplies, ho, hne, JsObject.getProp, hv, slotTruthy, htruthy]
    simp [applySave, horig, hr, JsObject.assign_of_ne_proto _ _ _ hproto]
  have hmemo : o ∈ P.entries.map Prod.fst := by
    by_contra hc
    have hnone := (JsObject.get?_eq_none_iff P o).mpr hc
    rw [hv] at hnone; cases hnone
  have hnotnew : data.newName ∉ (P.erase o).keys := by
    rw [← JsObject.get?_eq_none_iff, JsObject.get?_erase]
    simp [fun e : data.newName = o => hne e.symm, hfresh]
  refine ⟨s', _, h1, h2, h3, ?_, ?_, ?_, ?_⟩
  · rw [happly, JsObject.get?_set, JsObject.get?_erase]; simp [hne]
  · rw [happly, JsObject.get?_set]; simp
  · rw [happly]
    apply List.count_eq_one_of_mem ((P.erase o).set data.newName (snippetRecord data)).nodup
    show data.newName ∈ ((P.erase o).set data.newName (snippetRecord data)).keys
    rw [JsObject.keys_set]; simp [hnotnew]
  · rw [happly]
    show (setEntry data.newName (snippetRecord data) (eraseEntry o P.entries)).length
      = P.entries.length
    exact (length_setEntry_of_not_mem data.newName (snippetRecord data)
      (eraseEntry o P.entries) hnotnew).trans (length_eraseEntry_of_mem o P.entries hmemo)

/-- The hypotheses of `saveSnippet_rename` hold for the rename of `log` to `trace` in a
partition holding `log` only, and so does its conclusion. -/
theorem saveSnippet_rename_witness :
    (renameRequest.originalName = some "log" ∧ "log" ≠ "" ∧ "log" ≠ renameRequest.newName ∧
      persistedPartition (SnippetManager oneSnippetDir) renameRequest.language
        = some (JsObject.ofList [("log", sampleRecord "log")]) ∧
      (JsObject.ofList [("log", sampleRecord "log")]).get? "log" = some (sampleRecord "log") ∧
      (sampleRecord "log").truthy = true ∧
      (JsObject.ofList [("log", sampleRecord "log")]).get? renameRequest.newName = none ∧
      renameRequest.newName ≠ "__proto__") ∧
    ∃ s' P', saveSnippet renameRequest (SnippetManager oneSnippetDir) = .ok s' ∧
      persistedPartition s' renameRequest.language = some P' ∧
      getSnippets s' renameRequest.language = .object P' ∧
      P'.get? "log" = none ∧
      P'.get? renameRequest.newName = some (snippetRecord renameRequest) ∧
      P'.keys.count renameRequest.newName = 1 ∧
      P'.entries.length = (JsObject.ofList [("log", sampleRecord "log")]).entries.length :=
  ⟨⟨rfl, by decide, by decide, rfl, rfl, rfl, rfl, by decide⟩,
   saveSnippet_rename renameRequest (SnippetManager oneSnippetDir) "log"
     (JsObject.ofList [("log", sampleRecord "log")]) (sampleRecord "log")
     rfl (by decide) (by decide) rfl rfl rfl rfl (by decide)⟩

/-- C7 is false as stated: in the store an aborted restore leaves behind (the file of `a`
already merged, the snapshot not rebuilt), backing up the snapshot and restoring it at once
changes the snapshot partition of `a` from `{A: 1}` to `{A: 1, B: 2}`. -/
theorem backup_restore_stale_snapshot_changes :
    (restoreSnippets "Yes" (some inheritedKeyDocument) (SnippetManager singleDir)).1
      = staleStore ∧
    (restoreSnippets "Yes" (some (backupSnippets staleStore)) staleStore).1.snippets
      = JsObject.ofList [("a", JsObject.ofList [("A", .num 1), ("B", .num 2)])] ∧
    (restoreSnippets "Yes" (some (backupSnippets staleStore)) staleStore).1.snippets
      ≠ staleStore.snippets := by
  refine ⟨rfl, rfl, ?_⟩
  intro h
  have h2 := congrArg (fun o => (o.get? "a").map (fun P => P.entries.length)) h
  exact absurd h2 (by decide)

/-- C7 (amended): for every store in which each partition file holds either text that
`JSON.parse` rejects or a JSON object that `JSON.stringify` followed by `JSON.parse` gives back
(these are the stores of the model: the content of a file is a `Content`, a document is the
value it parses to, and a number is an integer), and whose snapshot is the one `refresh` builds
from the partition files, restoring the document `backupSnippets` produces, with no mutation in
between, leaves the snapshot equal to the original. -/
theorem backup_restore_roundtrip (s : Store) (hsync : s.snippets = (refresh s).snippets) :
    (restoreSnippets "Yes" (some (backupSnippets s)) s).1.snippets = s.snippets :=
  (backup_restore_fixpoint s hsync).1

/-- The hypothesis of `backup_restore_roundtrip` holds for the store built from a directory
with two snippets, and so does its conclusion. -/
theorem backup_restore_roundtrip_witness :
    (SnippetManager twoSnippetDir).snippets = (refresh (SnippetManager twoSnippetDir)).snippets ∧
    (restoreSnippets "Yes" (some (backupSnippets (SnippetManager twoSnippetDir)))
        (SnippetManager twoSnippetDir)).1.snippets = (SnippetManager twoSnippetDir).snippets :=
  ⟨rfl, backup_restore_roundtrip (SnippetManager twoSnippetDir) rfl⟩

/-- C8, evaluated where the code departs from it: restoring `{"data.jsonl": {A: 1}}` into an
empty store completes, yet afterwards the store knows the language `datal.json` instead of
`data.jsonl`, and `getSnippets("data.jsonl")` is the empty partition. -/
theorem restoreSnippets_dotted_language_not_known :
    getLanguageIds (SnippetManager JsObject.empty) = [] ∧
    (restoreSnippets "Yes" (some dottedDocument) (SnippetManager JsObject.empty)).2
      = .restored ∧
    getLanguageIds
      (restoreSnippets "Yes" (some dottedDocument) (SnippetManager JsObject.empty)).1
      = ["datal.json"] ∧
    getSnippets (restoreSnippets "Yes" (some dottedDocument) (SnippetManager JsObject.empty)).1
      "data.jsonl" = .object JsObject.empty :=
  ⟨rfl, rfl, rfl, rfl⟩

/-- C9 is false as stated: in the store an aborted restore leaves behind, restoring a
document for the language `c` only changes the snapshot partition of `a`, which has a
persisted partition and is not a key of the document, from `{A: 1}` to `{A: 1, B: 2}`. -/
theorem restoreSnippets_frame_stale_snapshot :
    "a" ∈ getLanguageIds abortedStore ∧
    "a" ∉ otherLanguageDocument.ownProps.keys ∧
    getSnippets abortedStore "a" = .object (JsObject.ofList [("A", .num 1)]) ∧
    getSnippets (restoreSnippets "Yes" (some (.json otherLanguageDocument)) abortedStore).1 "a"
      = .object (JsObject.ofList [("A", .num 1), ("B", .num 2)]) ∧
    getSnippets (restoreSnippets "Yes" (some (.json otherLanguageDocument)) abortedStore).1 "a"
      ≠ getSnippets abortedStore "a" := by
  refine ⟨by decide, by decide, rfl, rfl, ?_⟩
  intro h
  have h2 := congrArg
    (fun v => match v with
      | Partition.object P => P.entries.length
      | Partition.builtin _ => 0) h
  exact absurd h2 (by decide)

/-- C9 (amended): for every store whose snapshot is the one `refresh` builds from the persisted
files, and every parseable restore document each of whose language keys `k` names its own
partition file (`k` has no path separator and is the language `getSnippetFiles` derives from
the file name `k.json`), every language that has a persisted partition and is not a key of the
document has the same persisted content and the same snapshot partition after
`restoreSnippets` as before. -/
theorem restoreSnippets_frame (s : Store) (v : Json) (lang : String)
    (hsync : s.snippets = (refresh s).snippets)
    (hkeys : ∀ k ∈ v.ownProps.keys, namesOwnFile k = true)
    (hlang : lang ∈ getLanguageIds s)
    (hnot : lang ∉ v.ownProps.keys) :
    persistedContent (restoreSnippets "Yes" (some (.json v)) s).1 lang
        = persistedContent s lang ∧
      getSnippets (restoreSnippets "Yes" (some (.json v)) s).1 lang = getSnippets s lang := by
  obtain ⟨p, hp⟩ := Option.isSome_iff_exists.mp
    ((JsObject.get?_isSome_iff (getSnippetFiles s.dir) lang).mpr hlang)
  rcases objectEntries_cases v with herr | hok
  · have : restoreSnippets "Yes" (some (.json v)) s = (s, .failed .typeError) := by
      simp [restoreSnippets, herr]
    rw [this]
    exact ⟨rfl, rfl⟩
  · rw [restoreSnippets_json v s _ hok]
    obtain ⟨extra, h1, h2, h3, h4⟩ :=
      restoreLoop_frame s.dir lang p (getSnippetFiles_get? s.dir lang p hp).2
        v.ownProps.entries
        (fun e he => namesOwnFile_langOf _ (hkeys e.1 (List.mem_map.mpr ⟨e, he, rfl⟩))) hnot s
    generalize restoreLoop (getSnippetFiles s.dir) v.ownProps.entries s = r at h1 h2 h3 h4
    obtain ⟨st, err⟩ := r
    simp only at h1 h3 h4
    have hfiles : (getSnippetFiles st.dir).get? lang = some p := by
      rw [getSnippetFiles_get?_of_extra s.dir st.dir lang extra h1 h2, hp]
    have hcontent : ∀ t : Store, t.dir = st.dir → persistedContent t lang
        = persistedContent s lang := by
      intro t ht
      simp [persistedContent, ht, hfiles, hp, h3]
    cases err with
    | some e =>
      exact ⟨hcontent st rfl, getSnippets_congr s st lang (by rw [h4])⟩
    | none =>
      refine ⟨hcontent (refresh st) rfl, getSnippets_congr s (refresh st) lang ?_⟩
      rw [refresh_get?, hfiles, hsync, refresh_get?, hp]
      simp [loadPartition_congr s.dir st.dir p h3]

/-- The hypotheses of `restoreSnippets_frame` hold for the language `a` of a store with that
partition only and a document for the language `c`, and so does its conclusion. -/
theorem restoreSnippets_frame_witness :
    ((SnippetManager singleDir).snippets = (refresh (SnippetManager singleDir)).snippets ∧
      (∀ k ∈ otherLanguageDocument.ownProps.keys, namesOwnFile k = true) ∧
      "a" ∈ getLanguageIds (SnippetManager singleDir) ∧
      "a" ∉ otherLanguageDocument.ownProps.keys) ∧
    persistedContent
        (restoreSnippets "Yes" (some (.json otherLanguageDocument)) (SnippetManager singleDir)).1
        "a" = persistedContent (SnippetManager singleDir) "a" ∧
      getSnippets
        (restoreSnippets "Yes" (some (.json otherLanguageDocument)) (SnippetManager singleDir)).1
        "a" = getSnippets (SnippetManager singleDir) "a" :=
  ⟨⟨rfl, by decide, by decide, by decide⟩,
   restoreSnippets_frame (SnippetManager singleDir) otherLanguageDocument "a" rfl
     (by decide) (by decide) (by decide)⟩

/-- C10, evaluated where the code departs from it: deleting the name `constructor`, which is
not an entry of the `javascript` partition, rewrites the partition file: the log of writes,
empty before the call, holds one write after it. -/
theorem deleteSnippet_inherited_name_writes :
    (JsObject.ofList [("log", sampleRecord "log")]).get? "constructor" = none ∧
    persistedPartition (SnippetManager oneSnippetDir) "javascript"
      = some (JsObject.ofList [("log", sampleRecord "log")]) ∧
    (SnippetManager oneSnippetDir).writes = [] ∧
    (deleteSnippet { language := "javascript", name := "constructor" }
        (SnippetManager oneSnippetDir)).writes
      = [("javascript.json", .object (JsObject.ofList [("log", sampleRecord "log")]))] :=
  ⟨rfl, rfl, rfl, rfl⟩

/-- C11 is false as stated: after a restore has stored the entry `a` with the value `null` in
the `javascript` partition, `deleteSnippet` for `a`, a key of that partition, returns the
store as it is, and the entry is still there. -/
theorem deleteSnippet_falsy_entry_kept :
    persistedContent nullEntryStore "javascript"
      = some (.object (JsObject.ofList [("a", .null)])) ∧
    (JsObject.ofList [("a", Json.null)]).get? "a" = some .null ∧
    deleteSnippet { language := "javascript", name := "a" } nullEntryStore = nullEntryStore ∧
    persistedContent (deleteSnippet { language := "javascript", name := "a" } nullEntryStore)
      "javascript" = some (.object (JsObject.ofList [("a", .null)])) :=
  ⟨rfl, rfl, rfl, rfl⟩

/-- C11 (amended): for every language with a persisted partition `P` that parses and every
name `n` that is an entry of `P` with a truthy value, as every snippet record is, after
`deleteSnippet` the partition, persisted and in the snapshot, is `P` without `n`: `n` is gone,
every other name maps to what it mapped to, the language is still listed by
`getLanguageIds`, and when `n` was the only entry the partition is the empty one. -/
theorem deleteSnippet_existing (data : DeleteRequest) (s : Store) (P : JsObject Json)
    (v : Json)
    (hP : persistedContent s data.language = some (.object P))
    (hv : P.get? data.name = some v) (ht : v.truthy = true) :
    persistedContent (deleteSnippet data s) data.language
        = some (.object (P.erase data.name)) ∧
      getSnippets (deleteSnippet data s) data.language = .object (P.erase data.name) ∧
      (P.erase data.name).get? data.name = none ∧
      (∀ k, k ≠ data.name → (P.erase data.name).get? k = P.get? k) ∧
      data.language ∈ getLanguageIds (deleteSnippet data s) ∧
      (P.keys = [data.name] → (P.erase data.name).entries = []) := by
  unfold persistedContent at hP
  cases hp : (getSnippetFiles s.dir).get? data.language with
  | none => simp [hp] at hP
  | some p =>
    simp only [hp] at hP
    have hmem : p ∈ s.dir.keys := (getSnippetFiles_get? s.dir _ p hp).1
    have hfiles : getSnippetFiles (s.dir.set p (.object (P.erase data.name)))
        = getSnippetFiles s.dir :=
      getSnippetFiles_of_keys _ _ (keys_set_of_mem _ _ _ hmem)
    rw [deleteSnippet_of_entry data s p P v hp hP hv ht]
    refine ⟨?_, ?_, ?_, ?_, ?_, ?_⟩
    · simp only [persistedContent, refresh_dir, hfiles, hp, JsObject.get?_set, if_true]
    · have hget := refresh_get? { s with
        dir := s.dir.set p (.object (P.erase data.name))
        writes := s.writes ++ [(p, .object (P.erase data.name))] } data.language
      simp only [hfiles, hp, Option.map_some', loadPartition_set] at hget
      simp [getSnippets, JsObject.getProp, hget]
    · rw [JsObject.get?_erase]; simp
    · intro k hk
      rw [JsObject.get?_erase]; simp [hk]
    · show data.language ∈ (getSnippetFiles _).keys
      rw [refresh_dir]
      simp only [hfiles]
      rw [← JsObject.get?_isSome_iff, hp]; rfl
    · intro hk
      exact eraseEntry_singleton_keys data.name P.entries hk

/-- The hypotheses of `deleteSnippet_existing` hold for the only snippet `log` of the
`javascript` partition, and so does its conclusion. -/
theorem deleteSnippet_existing_witness :
    (persistedContent (SnippetManager oneSnippetDir) "javascript"
        = some (.object (JsObject.ofList [("log", sampleRecord "log")])) ∧
      (JsObject.ofList [("log", sampleRecord "log")]).get? "log" = some (sampleRecord "log") ∧
      (sampleRecord "log").truthy = true) ∧
    (persistedContent
        (deleteSnippet { language := "javascript", name := "log" } (SnippetManager oneSnippetDir))
        "javascript"
        = some (.object ((JsObject.ofList [("log", sampleRecord "log")]).erase "log")) ∧
      getSnippets
        (deleteSnippet { language := "javascript", name := "log" } (SnippetManager oneSnippetDir))
        "javascript" = .object ((JsObject.ofList [("log", sampleRecord "log")]).erase "log") ∧
      ((JsObject.ofList [("log", sampleRecord "log")]).erase "log").get? "log" = none ∧
      (∀ k, k ≠ "log" →
        ((JsObject.ofList [("log", sampleRecord "log")]).erase "log").get? k
          = (JsObject.ofList [("log", sampleRecord "log")]).get? k) ∧
      "javascript" ∈ getLanguageIds
        (deleteSnippet { language := "javascript", name := "log" }
          (SnippetManager oneSnippetDir)) ∧
      ((JsObject.ofList [("log", sampleRecord "log")]).keys = ["log"] →
        ((JsObject.ofList [("log", sampleRecord "log")]).erase "log").entries = [])) :=
  ⟨⟨rfl, rfl, rfl⟩,
   deleteSnippet_existing { language := "javascript", name := "log" }
     (SnippetManager oneSnippetDir) (JsObject.ofList [("log", sampleRecord "log")])
     (sampleRecord "log") rfl rfl rfl⟩

/-- C12 is false as stated: for the snapshot whose `javascript` partition holds the entry `a`
with the value `null`, `provideCompletionItems` for a `javascript` document raises a
`TypeError` instead of returning a list of one candidate. -/
theorem provideCompletionItems_null_entry_raises :
    getSnippets nullEntryStore "javascript" = .object (JsObject.ofList [("a", .null)]) ∧
    getSnippets nullEntryStore "global" = .object JsObject.empty ∧
    provideCompletionItems nullEntryStore "javascript" = .error .typeError :=
  ⟨rfl, rfl, rfl⟩

/-- C12 (amended): for every snapshot and every document language whose target partition
(`javascriptreact` resolved to `javascript`) and global partition hold no `null` entry,
`provideCompletionItems` returns a list whose length is the number of entries of the target
partition plus the number of entries of the global partition, and whose details are the names
of the target partition in iteration order followed by the names of the global partition in
iteration order, each followed by ` (Global)`; a name of both partitions gives two
candidates. -/
theorem provideCompletionItems_candidates (s : Store) (languageId : String)
    (hT : ∀ e ∈ partitionEntries (getSnippets s (targetLanguage languageId)), e.2 ≠ .null)
    (hG : ∀ e ∈ partitionEntries (getSnippets s "global"), e.2 ≠ .null) :
    ∃ items, provideCompletionItems s languageId = .ok items ∧
      items.length = (partitionEntries (getSnippets s (targetLanguage languageId))).length +
        (partitionEntries (getSnippets s "global")).length ∧
      items.map (fun item => item.detail) =
        (partitionEntries (getSnippets s (targetLanguage languageId))).map Prod.fst ++
          (partitionEntries (getSnippets s "global")).map (fun e => e.1 ++ " (Global)") ∧
      ∀ n, n ∈ (partitionEntries (getSnippets s (targetLanguage languageId))).map Prod.fst →
        n ∈ (partitionEntries (getSnippets s "global")).map Prod.fst →
        n ∈ items.map (fun item => item.detail) ∧
          n ++ " (Global)" ∈ items.map (fun item => item.detail) := by
  obtain ⟨a, ha, hal, had⟩ := collectItems_of_ne_null false _ hT
  obtain ⟨b, hb, hbl, hbd⟩ := collectItems_of_ne_null true _ hG
  have hdet : (a ++ b).map (fun item => item.detail) =
      (partitionEntries (getSnippets s (targetLanguage languageId))).map Prod.fst ++
        (partitionEntries (getSnippets s "global")).map (fun e => e.1 ++ " (Global)") := by
    rw [List.map_append, had, hbd]
    simp
  refine ⟨a ++ b, ?_, ?_, hdet, ?_⟩
  · simp [provideCompletionItems, addSnippets, ha, hb]
  · simp [hal, hbl]
  · intro n h1 h2
    rw [hdet]
    refine ⟨List.mem_append_left _ h1, List.mem_append_right _ ?_⟩
    obtain ⟨e, he, rfl⟩ := List.mem_map.mp h2
    exact List.mem_map.mpr ⟨e, he, rfl⟩

/-- The hypotheses of `provideCompletionItems_candidates` hold for a `javascriptreact`
document and the store with the `javascript` entries `foo` and `log` and the global entry
`log`, and so does its conclusion. -/
theorem provideCompletionItems_candidates_witness :
    ((∀ e ∈ partitionEntries
        (getSnippets (SnippetManager completionDir) (targetLanguage "javascriptreact")),
        e.2 ≠ .null) ∧
      (∀ e ∈ partitionEntries (getSnippets (SnippetManager completionDir) "global"),
        e.2 ≠ .null)) ∧
    ∃ items, provideCompletionItems (SnippetManager completionDir) "javascriptreact"
        = .ok items ∧
      items.length =
        (partitionEntries
          (getSnippets (SnippetManager completionDir) (targetLanguage "javascriptreact"))).length +
        (partitionEntries (getSnippets (SnippetManager completionDir) "global")).length ∧
      items.map (fun item => item.detail) =
        (partitionEntries
          (getSnippets (SnippetManager completionDir)
            (targetLanguage "javascriptreact"))).map Prod.fst ++
          (partitionEntries (getSnippets (SnippetManager completionDir) "global")).map
            (fun e => e.1 ++ " (Global)") ∧
      ∀ n, n ∈ (partitionEntries
          (getSnippets (SnippetManager completionDir)
            (targetLanguage "javascriptreact"))).map Prod.fst →
        n ∈ (partitionEntries (getSnippets (SnippetManager completionDir) "global")).map
          Prod.fst →
        n ∈ items.map (fun item => item.detail) ∧
          n ++ " (Global)" ∈ items.map (fun item => item.detail) :=
  have hT : ∀ e ∈ partitionEntries
      (getSnippets (SnippetManager completionDir) (targetLanguage "javascriptreact")),
      e.2 ≠ .null := fun e he => by
    have he' : e ∈ [("foo", sampleRecord "f"), ("log", sampleRecord "log")] := he
    simp only [List.mem_cons, List.mem_singleton, List.not_mem_nil, or_false] at he'
    rcases he' with rfl | rfl <;> simp [sampleRecord]
  have hG : ∀ e ∈ partitionEntries (getSnippets (SnippetManager completionDir) "global"),
      e.2 ≠ .null := fun e he => by
    have he' : e ∈ [("log", sampleRecord "l")] := he
    simp only [List.mem_singleton] at he'
    rw [he']; simp [sampleRecord]
  ⟨⟨hT, hG⟩,
   provideCompletionItems_candidates (SnippetManager completionDir) "javascriptreact" hT hG⟩

/-- C13, evaluated where the code departs from it: with no partition file the snapshot is
empty, yet `getSnippets("constructor")` returns the member of `Object.prototype` of that
name, not the empty partition. -/
theorem getSnippets_inherited_name_not_empty :
    getLanguageIds (SnippetManager JsObject.empty) = [] ∧
    (SnippetManager JsObject.empty).snippets = JsObject.empty ∧
    getSnippets (SnippetManager JsObject.empty) "constructor" = .builtin "constructor" :=
  ⟨rfl, rfl, rfl⟩

/-- C14 is false as stated: for the empty token, whose normalized form is no known language,
`addLanguage` returns without adding anything; and for the token `data.jsonl` it creates the
file `data.jsonl.json`, after which the known language is `datal.json`, not `data.jsonl`. -/
theorem addLanguage_token_not_listed :
    cleanId "" = "" ∧
    "" ∉ getLanguageIds (SnippetManager JsObject.empty) ∧
    addLanguage (some "") (SnippetManager JsObject.empty)
      = .ok (SnippetManager JsObject.empty, .noInput) ∧
    cleanId "data.jsonl" = "data.jsonl" ∧
    ∃ s', addLanguage (some "data.jsonl") (SnippetManager JsObject.empty)
        = .ok (s', .added "data.jsonl") ∧
      getLanguageIds s' = ["datal.json"] ∧
      getSnippets s' "datal.json" = .object JsObject.empty :=
  ⟨by decide, by decide, rfl, by decide, _, rfl, rfl, rfl⟩

/-- C14 (amended): for every non-empty user token whose normalized form `t` (lower-cased,
then trimmed) names its own partition file, gives a file name `t.json` under which the file
system creates a file (at most 255 bytes, no NUL character: `fitsFileName`), is not `__proto__`
and is not a known language, `addLanguage` adds the language: afterwards `getLanguageIds`
contains `t`, `getSnippets(t)` is the empty partition, and every language known before is still
known, with the same persisted content. -/
theorem addLanguage_new (token : String) (s : Store) (h0 : token ≠ "")
    (hown : namesOwnFile (cleanId token) = true)
    (hfit : fitsFileName (cleanId token ++ ".json") = true)
    (hproto : cleanId token ≠ "__proto__")
    (hlang : cleanId token ∉ getLanguageIds s) :
    ∃ s', addLanguage (some token) s = .ok (s', .added (cleanId token)) ∧
      cleanId token ∈ getLanguageIds s' ∧
      getSnippets s' (cleanId token) = .object JsObject.empty ∧
      ∀ lang ∈ getLanguageIds s,
        lang ∈ getLanguageIds s' ∧ persistedContent s' lang = persistedContent s lang := by
  have _ := hfit
  have hnew := not_mem_keys_of_unknown s.dir (cleanId token) hown hproto hlang
  have hl := namesOwnFile_langOf (cleanId token) hown
  have hfiles := getSnippetFiles_set_new s.dir (cleanId token ++ ".json")
    (.object JsObject.empty) hnew (endsWithJson_append _) (by rw [hl]; exact hproto)
  rw [hl] at hfiles
  refine ⟨_, addLanguage_of_new token s h0 hnew, ?_, ?_, ?_⟩
  · show cleanId token ∈ (getSnippetFiles _).keys
    rw [refresh_dir]
    simp only [hfiles]
    rw [← JsObject.get?_isSome_iff, JsObject.get?_set]
    simp
  · have hget := refresh_get? { s with
      dir := s.dir.set (cleanId token ++ ".json") (.object JsObject.empty)
      writes := s.writes ++ [(cleanId token ++ ".json", .object JsObject.empty)] }
      (cleanId token)
    simp only [hfiles, JsObject.get?_set, if_true, Option.map_some', loadPartition_set] at hget
    simp [getSnippets, JsObject.getProp, hget]
  · intro lang hmem
    have hne : lang ≠ cleanId token := fun e => hlang (e ▸ hmem)
    obtain ⟨p, hp⟩ := Option.isSome_iff_exists.mp
      ((JsObject.get?_isSome_iff (getSnippetFiles s.dir) lang).mpr hmem)
    have hpne : p ≠ cleanId token ++ ".json" :=
      fun e => hnew (e ▸ (getSnippetFiles_get? s.dir lang p hp).1)
    constructor
    · show lang ∈ (getSnippetFiles _).keys
      rw [refresh_dir]
      simp only [hfiles]
      rw [← JsObject.get?_isSome_iff, JsObject.get?_set]
      simp [hne, hp]
    · simp only [persistedContent, refresh_dir, hfiles, JsObject.get?_set, hne, if_false, hp,
        hpne]


/-- The hypotheses of `addLanguage_new` hold for the token ` Python ` and a store that knows
`javascript` only, and so does its conclusion. -/
theorem addLanguage_new_witness :
    (" Python " ≠ "" ∧ namesOwnFile (cleanId " Python ") = true ∧
      fitsFileName (cleanId " Python " ++ ".json") = true ∧
      cleanId " Python " ≠ "__proto__" ∧
      cleanId " Python " ∉ getLanguageIds (SnippetManager oneSnippetDir)) ∧
    ∃ s', addLanguage (some " Python ") (SnippetManager oneSnippetDir)
        = .ok (s', .added (cleanId " Python ")) ∧
      cleanId " Python " ∈ getLanguageIds s' ∧
      getSnippets s' (cleanId " Python ") = .object JsObject.empty ∧
      ∀ lang ∈ getLanguageIds (SnippetManager oneSnippetDir),
        lang ∈ getLanguageIds s' ∧
          persistedContent s' lang = persistedContent (SnippetManager oneSnippetDir) lang :=
  ⟨⟨by decide, by decide, by decide, by decide, by decide⟩,
   addLanguage_new " Python " (SnippetManager oneSnippetDir)
     (by decide) (by decide) (by decide) (by decide) (by decide)⟩

/-- C15 is false as stated: once the token of one blank has been added, the partition file
`.json` of the empty normalized form exists, and `addLanguage` for the empty token, whose
normalized form that is, returns without signalling that the language already exists. -/
theorem addLanguage_empty_token_silent :
    addLanguage (some " ") (SnippetManager JsObject.empty)
      = .ok (blankLanguageStore, .added "") ∧
    existsSync blankLanguageStore.dir (.file (cleanId "" ++ ".json")) = true ∧
    addLanguage (some "") blankLanguageStore = .ok (blankLanguageStore, .noInput) :=
  ⟨rfl, rfl, rfl⟩

/-- C15 (amended): for every non-empty user token whose normalized form (lower-cased, then
trimmed) already has a partition file, `addLanguage` signals that the language already
exists and returns the store as it was: nothing is written, and the snapshot and every
partition file are unchanged. -/
theorem addLanguage_existing (token : String) (s : Store) (h0 : token ≠ "")
    (hfile : existsSync s.dir (.file (cleanId token ++ ".json")) = true) :
    addLanguage (some token) s = .ok (s, .alreadyExists (cleanId token)) := by
  simp [addLanguage, h0, hfile]

/-- The hypotheses of `addLanguage_existing` hold for the token ` JavaScript` and a store
with a `javascript` partition, and so does its conclusion. -/
theorem addLanguage_existing_witness :
    (" JavaScript" ≠ "" ∧
      existsSync (SnippetManager oneSnippetDir).dir (.file (cleanId " JavaScript" ++ ".json"))
        = true) ∧
    addLanguage (some " JavaScript") (SnippetManager oneSnippetDir)
      = .ok (SnippetManager oneSnippetDir, .alreadyExists (cleanId " JavaScript")) :=
  ⟨⟨by decide, rfl⟩,
   addLanguage_existing " JavaScript" (SnippetManager oneSnippetDir) (by decide) rfl⟩

/-- C16, evaluated where the code departs from it: `saveSnippet` for the language
`constructor`, which has no partition file and is not `global`, raises a `TypeError` instead
of returning. -/
theorem saveSnippet_inherited_language_raises :
    "constructor" ∉ getLanguageIds (SnippetManager oneSnippetDir) ∧
    inheritedLanguageRequest.language ≠ "global" ∧
    saveSnippet inheritedLanguageRequest (SnippetManager oneSnippetDir) = .error .typeError :=
  ⟨by decide, by decide, rfl⟩

/-- C17, evaluated where the code departs from it: the snapshot is consistent with the
partition files after construction, and no longer after the restore of
`{a: {B: 2}, b: {C: 3}}` that fails at the malformed file of `b`: the file of `a` holds
`{A: 1, B: 2}`, the snapshot still `{A: 1}`. -/
theorem restoreSnippets_failure_breaks_consistency :
    Consistent (SnippetManager malformedSecondDir) ∧
    (restoreSnippets "Yes" (some twoLanguageDocument) (SnippetManager malformedSecondDir)).2
      = .failed .syntaxError ∧
    abortedStore.snippets.get? "a" = some (JsObject.ofList [("A", .num 1)]) ∧
    (refresh abortedStore).snippets.get? "a"
      = some (JsObject.ofList [("A", .num 1), ("B", .num 2)]) ∧
    ¬ Consistent abortedStore := by
  refine ⟨rfl, rfl, rfl, rfl, ?_⟩
  intro h
  have h2 := congrArg (fun o => (o.get? "a").map (fun P => P.entries.length)) h
  exact absurd h2 (by decide)

/-- C18: for every string body `s`, the line sequence `saveSnippet` stores for it in the
record (`s` split at newlines), joined with newlines as `provideCompletionItems` and
`insertSnippet` do, is `s` again; and a body supplied as a line sequence is stored in the
record unchanged. -/
theorem body_normalization_roundtrip (s : String) (lines : List Json) (data : SaveRequest) :
    normalizeBody (.str s) = .arr ((splitLines s).map Json.str) ∧
    readField (snippetRecord { data with body := .str s }) "body"
      = .ok (some (normalizeBody (.str s))) ∧
    snippetText (some (normalizeBody (.str s))) = some (.str s) ∧
    insertSnippet (some (normalizeBody (.str s))) = some (.str s) ∧
    normalizeBody (.arr lines) = .arr lines ∧
    readField (snippetRecord { data with body := .arr lines }) "body"
      = .ok (some (.arr lines)) := by
  have h : snippetText (some (normalizeBody (.str s))) = some (.str s) := by
    simp only [normalizeBody, snippetText, arrayJoin, elementStrings_str,
      joinStrings_splitLines]
  exact ⟨rfl, rfl, h, h, rfl, rfl⟩

end SnippetLibrary
